import Mathlib

/-!
Shallow embedding of the command execution and replay engine of the
YesUeFsd plugin, together with proofs that settle the frozen claims
about it.  Each section embeds one source component:

* `UAutoDriverComponent` (command orchestrator) — AutoDriverComponent.cpp
* `FNavigationQueryCache` (spatial query cache) — NavigationCache.cpp / .h
* `UActionTimeline` — ActionTimeline.cpp
* `UActionRecorder` — ActionRecorder.cpp
* `UActionPlayback` — ActionPlayback.cpp

Floating point quantities (`float`/`double`) are embedded as exact
rationals, 32/64-bit integers as `ℤ`/`ℕ`, `TArray` as `List`, and
`TMap` as an insertion-ordered association list.
-/

namespace YesUeFsd

/-! ## Driver orchestrator: `UAutoDriverComponent` -/

/-- Lifecycle state of a command, per the source's
`EAutoDriverCommandStatus` plus the pre-`Execute` `Created` state. -/
inductive CommandState
  | created
  | running
  | succeeded
  | failed
  | cancelled
deriving DecidableEq, Repr

/-- An observable call the orchestrator makes into a command object:
`Cancel()` or `Execute()`. -/
inductive CallEvent
  | cancel (cmd : ℕ)
  | execute (cmd : ℕ)
deriving DecidableEq, Repr

/-- State of a `UAutoDriverComponent` together with the states of the
command objects it may touch (identified by natural numbers) and the
trace of `Cancel`/`Execute` calls it has issued. -/
structure OrchWorld where
  bEnabled : Bool
  currentCommand : Option ℕ
  commandStates : ℕ → CommandState
  callTrace : List CallEvent

/-- `IAutoDriverCommand::Cancel()`: forces the command to `Cancelled`;
the call is appended to the trace. -/
def cancelCommand (c : ℕ) (w : OrchWorld) : OrchWorld :=
  { w with
    commandStates := Function.update w.commandStates c .cancelled
    callTrace := w.callTrace ++ [.cancel c] }

/-- `UAutoDriverComponent::StopCurrentCommand` (source lines 106-113):
if a command is installed, `Cancel()` it and reset the slot. -/
def stopCurrentCommand (w : OrchWorld) : OrchWorld :=
  match w.currentCommand with
  | some c => { cancelCommand c w with currentCommand := none }
  | none => w

/-- `UAutoDriverComponent::ExecuteCommand` (source lines 74-104).
`objValid` models `Command.GetObject() != nullptr`; `implementsInterface`
models the `Cast<IAutoDriverCommand>` succeeding.  After stopping the
current command the source hits a TODO stub ("Command system needs
implementation"): it returns `false` without installing the new command
and without calling `Execute()`, in every branch. -/
def executeCommand (cmd : ℕ) (objValid implementsInterface : Bool)
    (w : OrchWorld) : Bool × OrchWorld :=
  if w.bEnabled = false then (false, w)
  else if objValid = false then (false, w)
  else if implementsInterface = false then (false, stopCurrentCommand w)
  else (false, stopCurrentCommand w)

/-- State the installed command is left in by its own `Tick`: command
implementations only advance while `bIsRunning`, so a non-running
command keeps its state and a running one moves to the
environment-chosen `outcome`. -/
def newStateAfterTick (w : OrchWorld) (c : ℕ) (outcome : CommandState) : CommandState :=
  if w.commandStates c = .running then outcome else w.commandStates c

/-- `UAutoDriverComponent::TickComponent` (source lines 51-72): when
enabled and a command is installed, tick it; if afterwards it is not
running, the completion path (`OnCommandCompleted`) clears the slot. -/
def tickComponentOrch (outcome : CommandState) (w : OrchWorld) : OrchWorld :=
  if w.bEnabled = false then w
  else
    match w.currentCommand with
    | some c =>
        if newStateAfterTick w c outcome = .running then
          { w with commandStates := Function.update w.commandStates c (newStateAfterTick w c outcome) }
        else
          { w with
            commandStates := Function.update w.commandStates c (newStateAfterTick w c outcome)
            currentCommand := none }
    | none => w

/-- `UAutoDriverComponent::SetEnabled` (source lines 237-253): disabling
stops the current command. -/
def setEnabledOrch (b : Bool) (w : OrchWorld) : OrchWorld :=
  if w.bEnabled = b then w
  else if b = false then stopCurrentCommand { w with bEnabled := b }
  else { w with bEnabled := b }

/-- One externally invokable operation on the orchestrator. -/
inductive OrchOp
  | execCmd (cmd : ℕ) (objValid implementsInterface : Bool)
  | stopCmd
  | setEnabledOp (b : Bool)
  | tickOp (outcome : CommandState)
deriving DecidableEq, Repr

/-- Apply one operation to the world. -/
def applyOp (w : OrchWorld) (op : OrchOp) : OrchWorld :=
  match op with
  | .execCmd c v i => (executeCommand c v i w).2
  | .stopCmd => stopCurrentCommand w
  | .setEnabledOp b => setEnabledOrch b w
  | .tickOp outcome => tickComponentOrch outcome w

/-- Run a sequence of operations. -/
def runOps (ops : List OrchOp) (w : OrchWorld) : OrchWorld :=
  ops.foldl applyOp w

/-- Freshly constructed component: enabled by default (header line 297),
no command installed, every command object still `Created`. -/
def initWorld : OrchWorld :=
  { bEnabled := true
    currentCommand := none
    commandStates := fun _ => .created
    callTrace := [] }

/-- No two distinct commands are simultaneously in the `Running` state. -/
def atMostOneRunning (w : OrchWorld) : Prop :=
  ∀ c d, w.commandStates c = .running → w.commandStates d = .running → c = d

/-- Within the event list `evs` emitted by a single call, every
`Execute()` is preceded by a `Cancel()` of the previously active
command `p`. -/
def cancelPrecedesExecute (evs : List CallEvent) (p : ℕ) : Prop :=
  ∀ (i c : ℕ), evs[i]? = some (CallEvent.execute c) →
    ∃ j : ℕ, j < i ∧ evs[j]? = some (CallEvent.cancel p)

/-- Events emitted by a single call: the suffix of the trace added on
top of the pre-call trace. -/
def emittedEvents (pre post : OrchWorld) : List CallEvent :=
  post.callTrace.drop pre.callTrace.length

lemma stopCurrentCommand_running (w : OrchWorld) (c : ℕ)
    (h : (stopCurrentCommand w).commandStates c = .running) :
    w.commandStates c = .running := by
  unfold stopCurrentCommand at h
  cases hcur : w.currentCommand with
  | none => rw [hcur] at h; exact h
  | some q =>
      rw [hcur] at h
      simp only [cancelCommand, Function.update_apply] at h
      by_cases hc : c = q
      · simp [hc] at h
      · simp only [hc, if_false] at h; exact h

lemma applyOp_running (w : OrchWorld) (op : OrchOp) (c : ℕ)
    (h : (applyOp w op).commandStates c = .running) :
    w.commandStates c = .running := by
  cases op with
  | execCmd cmd v i =>
      simp only [applyOp, executeCommand] at h
      by_cases h1 : w.bEnabled = false
      · rw [if_pos h1] at h; exact h
      · rw [if_neg h1] at h
        by_cases h2 : v = false
        · rw [if_pos h2] at h; exact h
        · rw [if_neg h2] at h
          by_cases h3 : i = false
          · rw [if_pos h3] at h; exact stopCurrentCommand_running w c h
          · rw [if_neg h3] at h; exact stopCurrentCommand_running w c h
  | stopCmd =>
      simp only [applyOp] at h
      exact stopCurrentCommand_running w c h
  | setEnabledOp b =>
      simp only [applyOp, setEnabledOrch] at h
      by_cases h1 : w.bEnabled = b
      · rw [if_pos h1] at h; exact h
      · rw [if_neg h1] at h
        by_cases h2 : b = false
        · rw [if_pos h2] at h
          exact stopCurrentCommand_running { w with bEnabled := b } c h
        · rw [if_neg h2] at h; exact h
  | tickOp outcome =>
      simp only [applyOp, tickComponentOrch] at h
      by_cases h1 : w.bEnabled = false
      · rw [if_pos h1] at h; exact h
      · rw [if_neg h1] at h
        cases hcur : w.currentCommand with
        | none => rw [hcur] at h; exact h
        | some q =>
            rw [hcur] at h
            dsimp only at h
            by_cases hns : newStateAfterTick w q outcome = .running
            · rw [if_pos hns] at h
              simp only [Function.update_apply] at h
              by_cases hc : c = q
              · subst hc
                unfold newStateAfterTick at hns
                by_cases hq : w.commandStates c = .running
                · exact hq
                · rw [if_neg hq] at hns; exact hns
              · rw [if_neg hc] at h; exact h
            · rw [if_neg hns] at h
              simp only [Function.update_apply] at h
              by_cases hc : c = q
              · subst hc; rw [if_pos rfl] at h; exact absurd h hns
              · rw [if_neg hc] at h; exact h

lemma runOps_running (ops : List OrchOp) :
    ∀ w c, (runOps ops w).commandStates c = .running →
      w.commandStates c = .running := by
  induction ops with
  | nil => intro w c h; exact h
  | cons op rest ih =>
      intro w c h
      have h' : (runOps rest (applyOp w op)).commandStates c = .running := by
        simpa [runOps, List.foldl_cons] using h
      exact applyOp_running w op c (ih (applyOp w op) c h')

lemma executeCommand_events_cancelOnly (cmd : ℕ) (v i : Bool) (w : OrchWorld)
    (p : ℕ) (hw : w.currentCommand = some p) :
    emittedEvents w (executeCommand cmd v i w).2 = [] ∨
      emittedEvents w (executeCommand cmd v i w).2 = [.cancel p] := by
  have hstop : (stopCurrentCommand w).callTrace = w.callTrace ++ [.cancel p] := by
    unfold stopCurrentCommand
    rw [hw]
    simp [cancelCommand]
  unfold executeCommand emittedEvents
  by_cases h1 : w.bEnabled = false
  · left; rw [if_pos h1]; simp
  · rw [if_neg h1]
    by_cases h2 : v = false
    · left; rw [if_pos h2]; simp
    · rw [if_neg h2]
      by_cases h3 : i = false
      · right; rw [if_pos h3]; rw [hstop]; simp
      · right; rw [if_neg h3]; rw [hstop]; simp

/-- C1.  Over every sequence of orchestrator operations starting from a
fresh component, at most one command is ever `Running`; and within the
events any single `ExecuteCommand` call emits while a command `p` is
active, every `Execute()` of the new command is preceded by a `Cancel()`
of `p`.  (In the source, `ExecuteCommand` is a stub that never calls
`Execute()` at all, so the second part holds with no `Execute` events.) -/
theorem executeCommand_preemption_invariant (ops : List OrchOp)
    (w : OrchWorld) (p cmd : ℕ) (objValid implementsInterface : Bool)
    (hw : w.currentCommand = some p) :
    atMostOneRunning (runOps ops initWorld) ∧
      cancelPrecedesExecute
        (emittedEvents w (executeCommand cmd objValid implementsInterface w).2) p := by
  constructor
  · intro c d hc _
    have : initWorld.commandStates c = .running := runOps_running ops initWorld c hc
    simp [initWorld] at this
  · unfold cancelPrecedesExecute
    intro i c hi
    rcases executeCommand_events_cancelOnly cmd objValid implementsInterface w p hw with h | h
    · rw [h] at hi; simp at hi
    · rw [h] at hi
      cases i with
      | zero => simp at hi
      | succ j => simp at hi

/-- Concrete world used by the C1 witness: command `0` is active. -/
def witnessWorld : OrchWorld :=
  { bEnabled := true
    currentCommand := some 0
    commandStates := fun _ => .running
    callTrace := [] }

/-- Witness for C1 at a concrete operation sequence and a concrete
pre-call world with an active command. -/
theorem executeCommand_preemption_invariant_witness :
    atMostOneRunning
      (runOps [.execCmd 7 true true, .stopCmd, .tickOp .succeeded] initWorld) ∧
      cancelPrecedesExecute
        (emittedEvents witnessWorld (executeCommand 7 true true witnessWorld).2) 0 :=
  executeCommand_preemption_invariant
    [.execCmd 7 true true, .stopCmd, .tickOp .succeeded]
    witnessWorld 0 7 true true rfl

/-- C2.  Evaluation of `ExecuteCommand` on a fresh, enabled component
with a valid command that implements the interface: the call returns
`false`, installs nothing, and emits no calls into any command — the
source's TODO stub, contradicting the documented contract. -/
theorem executeCommand_stub_evaluation :
    initWorld.bEnabled = true ∧
      (executeCommand 1 true true initWorld).1 = false ∧
      (executeCommand 1 true true initWorld).2.currentCommand = none ∧
      (executeCommand 1 true true initWorld).2.callTrace = [] :=
  ⟨rfl, rfl, rfl, rfl⟩

/-! ## Spatial query cache: `FNavigationQueryCache` -/

/-- Three-component vector standing in for `FVector`; exact rationals. -/
structure Vec3 where
  x : ℚ
  y : ℚ
  z : ℚ
deriving DecidableEq, Repr

/-- `FVector::DistSquared`. -/
def Vec3.distSquared (a b : Vec3) : ℚ :=
  (a.x - b.x) ^ 2 + (a.y - b.y) ^ 2 + (a.z - b.z) ^ 2

/-- `FMath::GridSnap(q, 1.0)`: `Floor(q + 0.5) * 1.0`. -/
def gridSnap1 (q : ℚ) : ℚ := (⌊q + 1 / 2⌋ : ℤ)

/-- Quantisation from `GenerateCacheKey` (NavigationCache.cpp lines
62-78): `(V / CacheTolerance).GridSnap(1.0f) * CacheTolerance`,
componentwise. -/
def quantizeVec (tol : ℚ) (v : Vec3) : Vec3 :=
  ⟨gridSnap1 (v.x / tol) * tol, gridSnap1 (v.y / tol) * tol, gridSnap1 (v.z / tol) * tol⟩

/-- Cache key.  The source hashes the six quantised scalars into a
`uint64`; the spec requires the combination to be collision-free and the
claims only concern non-colliding keys, so the key is embedded as the
quantised pair itself. -/
abbrev CacheKey := Vec3 × Vec3

/-- `GenerateCacheKey`. -/
def generateCacheKey (tol : ℚ) (fromLoc toLoc : Vec3) : CacheKey :=
  (quantizeVec tol fromLoc, quantizeVec tol toLoc)

/-- `FNavigationPath` as far as the cache observes it: its `IsValid()`
value, held constant in this embedding. -/
structure NavPath where
  valid : Bool
deriving DecidableEq, Repr

/-- `FNavigationQueryCache::FCacheEntry` (header lines 19-50);
`path = none` models a null `FNavigationPath*`. -/
structure FCacheEntry where
  startLocation : Vec3
  endLocation : Vec3
  path : Option NavPath
  pathLength : ℚ
  bIsValid : Bool
  timestamp : ℚ
deriving DecidableEq, Repr

/-- The `FCacheEntry` constructor (header lines 37-44):
`bIsValid = (InPath != nullptr && InPath->IsValid())`. -/
def mkCacheEntry (s e : Vec3) (p : Option NavPath) (len ts : ℚ) : FCacheEntry :=
  { startLocation := s, endLocation := e, path := p, pathLength := len
    bIsValid := p.elim false (fun pp => pp.valid), timestamp := ts }

/-- `FCacheEntry::IsStillValid` (header lines 46-49). -/
def FCacheEntry.isStillValid (entry : FCacheEntry) : Bool :=
  entry.bIsValid && entry.path.isSome && entry.path.elim false (fun pp => pp.valid)

/-- `TMap<uint64, FCacheEntry>` as an insertion-ordered association list. -/
abbrev EntryMap := List (CacheKey × FCacheEntry)

/-- `TMap::Find`. -/
def tmapFind (k : CacheKey) : EntryMap → Option FCacheEntry
  | [] => none
  | pr :: rest => if pr.1 = k then some pr.2 else tmapFind k rest

/-- `TMap::Add`: overwrite an existing key in place, else append. -/
def tmapSet (k : CacheKey) (e : FCacheEntry) : EntryMap → EntryMap
  | [] => [(k, e)]
  | pr :: rest => if pr.1 = k then (k, e) :: rest else pr :: tmapSet k e rest

/-- `TMap::Remove`. -/
def tmapRemove (k : CacheKey) : EntryMap → EntryMap
  | [] => []
  | pr :: rest => if pr.1 = k then tmapRemove k rest else pr :: tmapRemove k rest

/-- LRU touch inside `FindCachedPath`: refresh the matched entry's
timestamp through the map pointer. -/
def touchEntry (k : CacheKey) (now : ℚ) : EntryMap → EntryMap
  | [] => []
  | pr :: rest =>
      if pr.1 = k then (pr.1, { pr.2 with timestamp := now }) :: touchEntry k now rest
      else pr :: touchEntry k now rest

/-- `FNavigationQueryCache` (header lines 101-129). -/
structure FNavigationQueryCache where
  cacheEntries : EntryMap
  maxCacheSize : ℤ
  cacheTolerance : ℚ
  cacheHits : ℤ
  cacheMisses : ℤ
deriving DecidableEq, Repr

/-- The constructor (header lines 52-55). -/
def emptyCache (maxSize : ℤ) (tol : ℚ) : FNavigationQueryCache :=
  { cacheEntries := [], maxCacheSize := maxSize, cacheTolerance := tol
    cacheHits := 0, cacheMisses := 0 }

/-- `LocationsMatch` (header lines 106-109). -/
def locationsMatch (tol : ℚ) (a b : Vec3) : Prop :=
  Vec3.distSquared a b ≤ tol * tol

instance (tol : ℚ) (a b : Vec3) : Decidable (locationsMatch tol a b) :=
  inferInstanceAs (Decidable (Vec3.distSquared a b ≤ tol * tol))

/-- Result of `FindCachedPath`: the return value, the `OutEntry`
parameter, and the mutated cache. -/
structure FindResult where
  found : Bool
  outEntry : Option FCacheEntry
  cache : FNavigationQueryCache
deriving DecidableEq, Repr

/-- `FindCachedPath` (NavigationCache.cpp lines 6-36); `now` is the
`FPlatformTime::Seconds()` reading used for the LRU touch.  `OutEntry`
is copied before the touch, as in the source. -/
def findCachedPath (fromLoc toLoc : Vec3) (now : ℚ)
    (c : FNavigationQueryCache) : FindResult :=
  match tmapFind (generateCacheKey c.cacheTolerance fromLoc toLoc) c.cacheEntries with
  | some entry =>
      if locationsMatch c.cacheTolerance entry.startLocation fromLoc ∧
          locationsMatch c.cacheTolerance entry.endLocation toLoc then
        if entry.isStillValid then
          { found := true, outEntry := some entry
            cache := { c with
              cacheEntries := touchEntry (generateCacheKey c.cacheTolerance fromLoc toLoc) now c.cacheEntries
              cacheHits := c.cacheHits + 1 } }
        else
          { found := false, outEntry := none
            cache := { c with
              cacheEntries := tmapRemove (generateCacheKey c.cacheTolerance fromLoc toLoc) c.cacheEntries
              cacheMisses := c.cacheMisses + 1 } }
      else
        { found := false, outEntry := none
          cache := { c with cacheMisses := c.cacheMisses + 1 } }
  | none =>
      { found := false, outEntry := none
        cache := { c with cacheMisses := c.cacheMisses + 1 } }

/-- One step of the minimum scan in `EvictOldestEntry`.  The source
starts from the sentinel `TNumericLimits<double>::Max()` with a strict
`<` comparison, so the first entry always replaces the sentinel
(`acc = none`) and later entries win only strictly. -/
def selOldest (acc : Option (CacheKey × FCacheEntry)) (pr : CacheKey × FCacheEntry) :
    Option (CacheKey × FCacheEntry) :=
  match acc with
  | none => some pr
  | some q => if pr.2.timestamp < q.2.timestamp then some pr else some q

/-- The `EvictOldestEntry` scan over the map. -/
def oldestEntry (l : EntryMap) : Option (CacheKey × FCacheEntry) :=
  l.foldl selOldest none

/-- `EvictOldestEntry` (NavigationCache.cpp lines 80-101). -/
def evictOldestEntry (c : FNavigationQueryCache) : FNavigationQueryCache :=
  if c.cacheEntries.isEmpty then c
  else
    match oldestEntry c.cacheEntries with
    | some pr => { c with cacheEntries := tmapRemove pr.1 c.cacheEntries }
    | none => c

/-- `CachePath` (NavigationCache.cpp lines 38-52): evict first when at
or over capacity, then add with the current timestamp. -/
def cachePath (fromLoc toLoc : Vec3) (path : Option NavPath) (pathLength now : ℚ)
    (c : FNavigationQueryCache) : FNavigationQueryCache :=
  if (c.cacheEntries.length : ℤ) ≥ c.maxCacheSize then
    { evictOldestEntry c with
      cacheEntries := tmapSet (generateCacheKey c.cacheTolerance fromLoc toLoc)
        (mkCacheEntry fromLoc toLoc path pathLength now) (evictOldestEntry c).cacheEntries }
  else
    { c with
      cacheEntries := tmapSet (generateCacheKey c.cacheTolerance fromLoc toLoc)
        (mkCacheEntry fromLoc toLoc path pathLength now) c.cacheEntries }

/-- `Clear` (NavigationCache.cpp lines 54-60). -/
def clearCache (c : FNavigationQueryCache) : FNavigationQueryCache :=
  { c with cacheEntries := [], cacheHits := 0, cacheMisses := 0 }

lemma tmapFind_tmapSet (k : CacheKey) (e : FCacheEntry) (l : EntryMap) :
    tmapFind k (tmapSet k e l) = some e := by
  induction l with
  | nil => simp [tmapFind, tmapSet]
  | cons pr rest ih =>
      unfold tmapSet
      by_cases hpr : pr.1 = k
      · rw [if_pos hpr]; unfold tmapFind; rw [if_pos rfl]
      · rw [if_neg hpr]; unfold tmapFind; rw [if_neg hpr]; exact ih

lemma locationsMatch_self (tol : ℚ) (a : Vec3) : locationsMatch tol a a := by
  unfold locationsMatch Vec3.distSquared
  simp [mul_self_nonneg tol]

lemma cachePath_tolerance (fromLoc toLoc : Vec3) (p : Option NavPath)
    (len now : ℚ) (c : FNavigationQueryCache) :
    (cachePath fromLoc toLoc p len now c).cacheTolerance = c.cacheTolerance := by
  unfold cachePath evictOldestEntry
  split
  · split
    · rfl
    · split <;> rfl
  · rfl

lemma cachePath_entries (fromLoc toLoc : Vec3) (p : Option NavPath)
    (len now : ℚ) (c : FNavigationQueryCache) :
    ∃ base : EntryMap,
      (cachePath fromLoc toLoc p len now c).cacheEntries =
        tmapSet (generateCacheKey c.cacheTolerance fromLoc toLoc)
          (mkCacheEntry fromLoc toLoc p len now) base := by
  unfold cachePath
  split
  · exact ⟨(evictOldestEntry c).cacheEntries, rfl⟩
  · exact ⟨c.cacheEntries, rfl⟩

lemma mkCacheEntry_isStillValid (s e : Vec3) (p : NavPath) (len ts : ℚ)
    (hp : p.valid = true) :
    (mkCacheEntry s e (some p) len ts).isStillValid = true := by
  simp [mkCacheEntry, FCacheEntry.isStillValid, Option.elim, hp]

/-- C3 (amended).  After `CachePath(A, B, path, l)` with a non-null,
valid path, an immediately following `FindCachedPath(A, B)` — issued
before anything could evict the entry — reports a hit whose `OutEntry`
is exactly the cached entry: path length `l` and a still-valid
(reachable) path. -/
theorem cachePath_findCachedPath_roundTrip (c : FNavigationQueryCache)
    (fromLoc toLoc : Vec3) (p : NavPath) (len t tFind : ℚ)
    (hp : p.valid = true) :
    (findCachedPath fromLoc toLoc tFind (cachePath fromLoc toLoc (some p) len t c)).found = true ∧
      (findCachedPath fromLoc toLoc tFind (cachePath fromLoc toLoc (some p) len t c)).outEntry =
        some (mkCacheEntry fromLoc toLoc (some p) len t) ∧
      (mkCacheEntry fromLoc toLoc (some p) len t).pathLength = len ∧
      (mkCacheEntry fromLoc toLoc (some p) len t).isStillValid = true := by
  obtain ⟨base, hbase⟩ := cachePath_entries fromLoc toLoc (some p) len t c
  have htol := cachePath_tolerance fromLoc toLoc (some p) len t c
  have hfind : tmapFind
      (generateCacheKey (cachePath fromLoc toLoc (some p) len t c).cacheTolerance fromLoc toLoc)
      (cachePath fromLoc toLoc (some p) len t c).cacheEntries =
      some (mkCacheEntry fromLoc toLoc (some p) len t) := by
    rw [htol, hbase]
    exact tmapFind_tmapSet _ _ base
  have hval := mkCacheEntry_isStillValid fromLoc toLoc p len t hp
  refine ⟨?_, ?_, rfl, hval⟩ <;>
  · unfold findCachedPath
    rw [hfind]
    simp [mkCacheEntry, locationsMatch_self, FCacheEntry.isStillValid, Option.elim, hp]

/-- Witness for C3 (amended) at concrete inputs. -/
theorem cachePath_findCachedPath_roundTrip_witness :
    (NavPath.mk true).valid = true ∧
      ((findCachedPath ⟨0, 0, 0⟩ ⟨1000, 0, 0⟩ 2
          (cachePath ⟨0, 0, 0⟩ ⟨1000, 0, 0⟩ (some ⟨true⟩) 500 1 (emptyCache 128 100))).found = true ∧
        (findCachedPath ⟨0, 0, 0⟩ ⟨1000, 0, 0⟩ 2
          (cachePath ⟨0, 0, 0⟩ ⟨1000, 0, 0⟩ (some ⟨true⟩) 500 1 (emptyCache 128 100))).outEntry =
          some (mkCacheEntry ⟨0, 0, 0⟩ ⟨1000, 0, 0⟩ (some ⟨true⟩) 500 1) ∧
        (mkCacheEntry ⟨0, 0, 0⟩ ⟨1000, 0, 0⟩ (some ⟨true⟩) 500 1).pathLength = 500 ∧
        (mkCacheEntry ⟨0, 0, 0⟩ ⟨1000, 0, 0⟩ (some ⟨true⟩) 500 1).isStillValid = true) :=
  ⟨rfl, cachePath_findCachedPath_roundTrip (emptyCache 128 100)
    ⟨0, 0, 0⟩ ⟨1000, 0, 0⟩ ⟨true⟩ 500 1 2 rfl⟩

/-- C3 counterexample: caching an unreachable result (`Path = nullptr`,
which the source's `CachePath` doc explicitly allows "for failed
paths") and immediately querying the same pair yields a miss — not a
hit carrying `(reachable = false, l)` — because `IsStillValid` rejects
the entry and `FindCachedPath` deletes it. -/
theorem findCachedPath_nullPath_miss :
    (findCachedPath ⟨0, 0, 0⟩ ⟨1000, 0, 0⟩ 2
        (cachePath ⟨0, 0, 0⟩ ⟨1000, 0, 0⟩ none 500 1 (emptyCache 128 100))).found = false ∧
      (findCachedPath ⟨0, 0, 0⟩ ⟨1000, 0, 0⟩ 2
        (cachePath ⟨0, 0, 0⟩ ⟨1000, 0, 0⟩ none 500 1 (emptyCache 128 100))).outEntry = none ∧
      (findCachedPath ⟨0, 0, 0⟩ ⟨1000, 0, 0⟩ 2
        (cachePath ⟨0, 0, 0⟩ ⟨1000, 0, 0⟩ none 500 1 (emptyCache 128 100))).cache.cacheEntries = [] := by
  norm_num [cachePath, findCachedPath, emptyCache, evictOldestEntry, oldestEntry, selOldest,
    tmapSet, tmapFind, tmapRemove, touchEntry, generateCacheKey, quantizeVec, gridSnap1,
    mkCacheEntry, locationsMatch, Vec3.distSquared, FCacheEntry.isStillValid]

lemma foldl_selOldest_spec (l : EntryMap) :
    ∀ pr : CacheKey × FCacheEntry,
      ∃ res, l.foldl selOldest (some pr) = some res ∧ (res = pr ∨ res ∈ l) ∧
        res.2.timestamp ≤ pr.2.timestamp ∧ ∀ q ∈ l, res.2.timestamp ≤ q.2.timestamp := by
  induction l with
  | nil => intro pr; exact ⟨pr, rfl, Or.inl rfl, le_refl _, by simp⟩
  | cons a rest ih =>
      intro pr
      simp only [List.foldl_cons]
      by_cases ha : a.2.timestamp < pr.2.timestamp
      · have hsel : selOldest (some pr) a = some a := by simp [selOldest, ha]
        rw [hsel]
        obtain ⟨res, h1, h2, h3, h4⟩ := ih a
        refine ⟨res, h1, ?_, le_trans h3 (le_of_lt ha), ?_⟩
        · rcases h2 with h | h
          · exact Or.inr (by simp [h])
          · exact Or.inr (by simp [h])
        · intro q hq
          rcases List.mem_cons.mp hq with h | h
          · rw [h]; exact h3
          · exact h4 q h
      · have hsel : selOldest (some pr) a = some pr := by simp [selOldest, ha]
        rw [hsel]
        obtain ⟨res, h1, h2, h3, h4⟩ := ih pr
        refine ⟨res, h1, ?_, h3, ?_⟩
        · rcases h2 with h | h
          · exact Or.inl h
          · exact Or.inr (by simp [h])
        · intro q hq
          rcases List.mem_cons.mp hq with h | h
          · rw [h]; exact le_trans h3 (le_of_not_lt ha)
          · exact h4 q h

lemma oldestEntry_spec (l : EntryMap) (hne : l ≠ []) :
    ∃ res, oldestEntry l = some res ∧ res ∈ l ∧
      ∀ q ∈ l, res.2.timestamp ≤ q.2.timestamp := by
  cases l with
  | nil => exact absurd rfl hne
  | cons a rest =>
      unfold oldestEntry
      simp only [List.foldl_cons]
      have hsel : selOldest none a = some a := rfl
      rw [hsel]
      obtain ⟨res, h1, h2, h3, h4⟩ := foldl_selOldest_spec rest a
      refine ⟨res, h1, ?_, ?_⟩
      · rcases h2 with h | h
        · simp [h]
        · simp [h]
      · intro q hq
        rcases List.mem_cons.mp hq with h | h
        · rw [h]; exact h3
        · exact h4 q h

lemma tmapRemove_of_not_mem (k : CacheKey) (l : EntryMap)
    (hk : k ∉ l.map Prod.fst) : tmapRemove k l = l := by
  induction l with
  | nil => rfl
  | cons pr rest ih =>
      have hpr : pr.1 ≠ k := by
        intro h; exact hk (by simp [h])
      have hrest : k ∉ rest.map Prod.fst := by
        intro h; exact hk (by simp [h])
      unfold tmapRemove
      rw [if_neg hpr, ih hrest]

lemma tmapRemove_length (k : CacheKey) (l : EntryMap)
    (hk : k ∈ l.map Prod.fst) (hnd : (l.map Prod.fst).Nodup) :
    (tmapRemove k l).length + 1 = l.length := by
  induction l with
  | nil => simp at hk
  | cons pr rest ih =>
      simp only [List.map_cons, List.nodup_cons] at hnd
      unfold tmapRemove
      by_cases hpr : pr.1 = k
      · rw [if_pos hpr]
        have : k ∉ rest.map Prod.fst := by rw [← hpr]; exact hnd.1
        rw [tmapRemove_of_not_mem k rest this]
        simp
      · rw [if_neg hpr]
        simp only [List.map_cons, List.mem_cons] at hk
        have hkr : k ∈ rest.map Prod.fst := by
          rcases hk with h | h
          · exact absurd h.symm hpr
          · exact h
        have := ih hkr hnd.2
        simp only [List.length_cons]
        omega

lemma tmapRemove_keys_subset (k : CacheKey) (l : EntryMap) :
    ∀ x ∈ (tmapRemove k l).map Prod.fst, x ∈ l.map Prod.fst := by
  induction l with
  | nil => intro x hx; simpa [tmapRemove] using hx
  | cons pr rest ih =>
      intro x hx
      unfold tmapRemove at hx
      by_cases hpr : pr.1 = k
      · rw [if_pos hpr] at hx
        exact List.mem_cons.mpr (Or.inr (ih x hx))
      · rw [if_neg hpr] at hx
        simp only [List.map_cons, List.mem_cons] at hx
        rcases hx with h | h
        · simp [h]
        · exact List.mem_cons.mpr (Or.inr (ih x h))

lemma tmapSet_eq_append (k : CacheKey) (e : FCacheEntry) (l : EntryMap)
    (hk : k ∉ l.map Prod.fst) : tmapSet k e l = l ++ [(k, e)] := by
  induction l with
  | nil => rfl
  | cons pr rest ih =>
      have hpr : pr.1 ≠ k := by
        intro h; exact hk (by simp [h])
      have hrest : k ∉ rest.map Prod.fst := by
        intro h; exact hk (by simp [h])
      unfold tmapSet
      rw [if_neg hpr, ih hrest]
      rfl

/-- The eviction shape asserted by the claim: inserting key `k` with
entry `e` into a full cache `c` removes exactly one entry — one whose
access timestamp is minimal over the whole cache — appends the new
entry, and leaves the size at the configured capacity. -/
def evictsOldestInto (c cNew : FNavigationQueryCache) (k : CacheKey) (e : FCacheEntry) : Prop :=
  ∃ victim, victim ∈ c.cacheEntries ∧
    (∀ q ∈ c.cacheEntries, victim.2.timestamp ≤ q.2.timestamp) ∧
    cNew.cacheEntries = tmapRemove victim.1 c.cacheEntries ++ [(k, e)] ∧
    (cNew.cacheEntries.length : ℤ) = c.maxCacheSize

/-- C4 (amended).  For a configured capacity of at least 1: a cache
filled exactly to capacity with distinct (non-colliding) keys, on
insertion of one more distinct key, evicts exactly one entry — an entry
with the globally oldest access timestamp — and the size returns to the
capacity.  (With capacity 0 the claim fails; see the counterexample.) -/
theorem cachePath_atCapacity_evictsOldest (c : FNavigationQueryCache)
    (fromLoc toLoc : Vec3) (p : Option NavPath) (len now : ℚ)
    (hcap : 1 ≤ c.maxCacheSize)
    (hfull : (c.cacheEntries.length : ℤ) = c.maxCacheSize)
    (hnd : (c.cacheEntries.map Prod.fst).Nodup)
    (hnew : generateCacheKey c.cacheTolerance fromLoc toLoc ∉ c.cacheEntries.map Prod.fst) :
    evictsOldestInto c (cachePath fromLoc toLoc p len now c)
      (generateCacheKey c.cacheTolerance fromLoc toLoc)
      (mkCacheEntry fromLoc toLoc p len now) := by
  have hne : c.cacheEntries ≠ [] := by
    intro h
    rw [h] at hfull
    simp at hfull
    omega
  obtain ⟨victim, hold, hmem, hmin⟩ := oldestEntry_spec c.cacheEntries hne
  have hE : c.cacheEntries.isEmpty = false := by
    cases hcc : c.cacheEntries with
    | nil => exact absurd hcc hne
    | cons a rest => rfl
  have hevict : (evictOldestEntry c).cacheEntries = tmapRemove victim.1 c.cacheEntries := by
    unfold evictOldestEntry
    rw [hE]
    simp only [Bool.false_eq_true, if_false]
    rw [hold]
  have hevtol : (evictOldestEntry c).cacheTolerance = c.cacheTolerance := by
    unfold evictOldestEntry
    rw [hE]
    simp only [Bool.false_eq_true, if_false]
    rw [hold]
  have hcond : (c.cacheEntries.length : ℤ) ≥ c.maxCacheSize := le_of_eq hfull.symm
  have hkeyrem : generateCacheKey c.cacheTolerance fromLoc toLoc ∉
      (tmapRemove victim.1 c.cacheEntries).map Prod.fst := by
    intro h
    exact hnew (tmapRemove_keys_subset victim.1 c.cacheEntries _ h)
  have hentries : (cachePath fromLoc toLoc p len now c).cacheEntries =
      tmapRemove victim.1 c.cacheEntries ++
        [(generateCacheKey c.cacheTolerance fromLoc toLoc,
          mkCacheEntry fromLoc toLoc p len now)] := by
    unfold cachePath
    rw [if_pos hcond, hevict]
    exact tmapSet_eq_append _ _ _ hkeyrem
  have hvmem : victim.1 ∈ c.cacheEntries.map Prod.fst :=
    List.mem_map_of_mem Prod.fst hmem
  have hlen : ((cachePath fromLoc toLoc p len now c).cacheEntries.length : ℤ) =
      c.maxCacheSize := by
    rw [hentries]
    rw [List.length_append, List.length_singleton]
    rw [← hfull]
    have := tmapRemove_length victim.1 c.cacheEntries hvmem hnd
    omega
  exact ⟨victim, hmem, hmin, hentries, hlen⟩

/-- Concrete cache at capacity 2 used by the C4 witness; the second
entry has the older access timestamp. -/
def c4Cache : FNavigationQueryCache :=
  { cacheEntries :=
      [((⟨0, 0, 0⟩, ⟨1, 0, 0⟩), mkCacheEntry ⟨0, 0, 0⟩ ⟨1, 0, 0⟩ (some ⟨true⟩) 10 5),
       ((⟨2, 0, 0⟩, ⟨3, 0, 0⟩), mkCacheEntry ⟨2, 0, 0⟩ ⟨3, 0, 0⟩ (some ⟨true⟩) 20 3)]
    maxCacheSize := 2
    cacheTolerance := 1
    cacheHits := 0
    cacheMisses := 0 }

/-- Witness for C4 (amended) at a concrete full cache. -/
theorem cachePath_atCapacity_evictsOldest_witness :
    1 ≤ c4Cache.maxCacheSize ∧
      ((c4Cache.cacheEntries.length : ℤ) = c4Cache.maxCacheSize) ∧
      (c4Cache.cacheEntries.map Prod.fst).Nodup ∧
      generateCacheKey c4Cache.cacheTolerance ⟨7, 0, 0⟩ ⟨8, 0, 0⟩ ∉
        c4Cache.cacheEntries.map Prod.fst ∧
      evictsOldestInto c4Cache (cachePath ⟨7, 0, 0⟩ ⟨8, 0, 0⟩ (some ⟨true⟩) 30 9 c4Cache)
        (generateCacheKey c4Cache.cacheTolerance ⟨7, 0, 0⟩ ⟨8, 0, 0⟩)
        (mkCacheEntry ⟨7, 0, 0⟩ ⟨8, 0, 0⟩ (some ⟨true⟩) 30 9) := by
  have h1 : 1 ≤ c4Cache.maxCacheSize := by norm_num [c4Cache]
  have h2 : ((c4Cache.cacheEntries.length : ℤ) = c4Cache.maxCacheSize) := by
    norm_num [c4Cache]
  have h3 : (c4Cache.cacheEntries.map Prod.fst).Nodup := by
    norm_num [c4Cache, Prod.ext_iff]
  have h4 : generateCacheKey c4Cache.cacheTolerance ⟨7, 0, 0⟩ ⟨8, 0, 0⟩ ∉
      c4Cache.cacheEntries.map Prod.fst := by
    norm_num [c4Cache, generateCacheKey, quantizeVec, gridSnap1, Prod.ext_iff]
  exact ⟨h1, h2, h3, h4,
    cachePath_atCapacity_evictsOldest c4Cache ⟨7, 0, 0⟩ ⟨8, 0, 0⟩ (some ⟨true⟩) 30 9 h1 h2 h3 h4⟩

/-- C4 counterexample: with a configured capacity of 0 (the constructor
accepts any `int32`), inserting into the cache that is "full at its
capacity" (empty) evicts nothing — there is nothing to evict — and
leaves the size at 1, exceeding the configured capacity. -/
theorem cachePath_capacityZero_exceeds :
    ((cachePath ⟨0, 0, 0⟩ ⟨1, 0, 0⟩ (some ⟨true⟩) 5 1 (emptyCache 0 1)).cacheEntries.length : ℤ) = 1 ∧
      (emptyCache 0 1).maxCacheSize = 0 := by
  norm_num [cachePath, emptyCache, evictOldestEntry, oldestEntry, selOldest, tmapSet,
    tmapRemove, generateCacheKey, quantizeVec, gridSnap1, mkCacheEntry]

/-! ## Action timeline: `UActionTimeline` -/

/-- `FRotator` with exact rational components. -/
structure Rotator where
  pitch : ℚ
  yaw : ℚ
  roll : ℚ
deriving DecidableEq, Repr

/-- Typed payload standing in for the `ActionData` JSON string.  The
source serialises command parameters into JSON text; no claim under
verification inspects that text, so the payload is embedded
structurally. -/
inductive ActionData
  | emptyData
  | movement (target : Vec3)
  | rotation (target : Rotator)
  | inputValue (value duration : ℚ)
deriving DecidableEq, Repr

/-- `FRecordedAction`. -/
structure FRecordedAction where
  timestamp : ℚ
  actionType : String
  actionName : String
  actionData : ActionData
deriving DecidableEq, Repr

/-- One step of `SortActions` (ActionTimeline.cpp lines 297-303).  The
source sorts with the strict comparator `A.Timestamp < B.Timestamp`;
any correct sort under it yields a sequence non-decreasing by
timestamp, embedded here as an insertion sort. -/
def insertByTimestamp (a : FRecordedAction) : List FRecordedAction → List FRecordedAction
  | [] => [a]
  | b :: rest =>
      if a.timestamp ≤ b.timestamp then a :: b :: rest
      else b :: insertByTimestamp a rest

/-- `SortActions`. -/
def sortActions (l : List FRecordedAction) : List FRecordedAction :=
  l.foldr insertByTimestamp []

/-- The stored sequence is non-decreasing by timestamp. -/
def sortedByTimestamp (l : List FRecordedAction) : Prop :=
  l.Pairwise (fun a b => a.timestamp ≤ b.timestamp)

/-- `GetDuration` (ActionTimeline.cpp lines 112-125): 0 when empty,
otherwise a running `max` started at 0. -/
def getDuration (actions : List FRecordedAction) : ℚ :=
  if actions.length = 0 then 0
  else actions.foldl (fun m a => max m a.timestamp) 0

/-- `UActionTimeline`: stored actions plus the metadata fields kept in
sync by `UpdateMetadata` (ActionTimeline.cpp lines 291-295). -/
structure UActionTimeline where
  actions : List FRecordedAction
  metadataDuration : ℚ
  metadataActionCount : ℕ
deriving DecidableEq, Repr

/-- A freshly constructed timeline. -/
def emptyTimeline : UActionTimeline :=
  { actions := [], metadataDuration := 0, metadataActionCount := 0 }

/-- `AddAction` (ActionTimeline.cpp lines 15-20): append, re-sort,
refresh metadata. -/
def addAction (action : FRecordedAction) (tl : UActionTimeline) : UActionTimeline :=
  { actions := sortActions (tl.actions ++ [action])
    metadataDuration := getDuration (sortActions (tl.actions ++ [action]))
    metadataActionCount := (sortActions (tl.actions ++ [action])).length }

/-- A timeline built by a sequence of `AddAction` calls. -/
def buildTimeline (acts : List FRecordedAction) : UActionTimeline :=
  acts.foldl (fun tl a => addAction a tl) emptyTimeline

lemma mem_insertByTimestamp (x a : FRecordedAction) :
    ∀ l, x ∈ insertByTimestamp a l ↔ x = a ∨ x ∈ l := by
  intro l
  induction l with
  | nil => simp [insertByTimestamp]
  | cons b rest ih =>
      unfold insertByTimestamp
      by_cases hab : a.timestamp ≤ b.timestamp
      · rw [if_pos hab]; simp
      · rw [if_neg hab]
        simp only [List.mem_cons, ih]
        tauto

lemma insertByTimestamp_sorted (a : FRecordedAction) :
    ∀ l, sortedByTimestamp l → sortedByTimestamp (insertByTimestamp a l) := by
  intro l
  induction l with
  | nil => intro _; simp [insertByTimestamp, sortedByTimestamp]
  | cons b rest ih =>
      intro h
      unfold sortedByTimestamp at h
      rw [List.pairwise_cons] at h
      unfold insertByTimestamp
      by_cases hab : a.timestamp ≤ b.timestamp
      · rw [if_pos hab]
        unfold sortedByTimestamp
        rw [List.pairwise_cons]
        constructor
        · intro x hx
          rcases List.mem_cons.mp hx with hx | hx
          · rw [hx]; exact hab
          · exact le_trans hab (h.1 x hx)
        · rw [List.pairwise_cons]
          exact h
      · rw [if_neg hab]
        unfold sortedByTimestamp
        rw [List.pairwise_cons]
        constructor
        · intro x hx
          rcases (mem_insertByTimestamp x a rest).mp hx with hx | hx
          · rw [hx]; exact le_of_not_le hab
          · exact h.1 x hx
        · exact ih h.2

lemma mem_sortActions (x : FRecordedAction) :
    ∀ l, x ∈ sortActions l ↔ x ∈ l := by
  intro l
  induction l with
  | nil => simp [sortActions]
  | cons a rest ih =>
      show x ∈ insertByTimestamp a (sortActions rest) ↔ _
      rw [mem_insertByTimestamp, ih]
      simp [eq_comm]

lemma sortActions_sorted : ∀ l, sortedByTimestamp (sortActions l) := by
  intro l
  induction l with
  | nil => simp [sortActions, sortedByTimestamp]
  | cons a rest ih => exact insertByTimestamp_sorted a (sortActions rest) ih

lemma le_foldl_max : ∀ (l : List FRecordedAction) (c : ℚ),
    c ≤ l.foldl (fun m a => max m a.timestamp) c := by
  intro l
  induction l with
  | nil => intro c; exact le_refl c
  | cons a rest ih =>
      intro c
      exact le_trans (le_max_left c a.timestamp) (ih (max c a.timestamp))

lemma mem_le_foldl_max : ∀ (l : List FRecordedAction) (c : ℚ) (a : FRecordedAction),
    a ∈ l → a.timestamp ≤ l.foldl (fun m b => max m b.timestamp) c := by
  intro l
  induction l with
  | nil => intro c a ha; simp at ha
  | cons b rest ih =>
      intro c a ha
      rcases List.mem_cons.mp ha with h | h
      · rw [h]
        exact le_trans (le_max_right c b.timestamp) (le_foldl_max rest (max c b.timestamp))
      · exact ih (max c b.timestamp) a h

lemma foldl_max_attained : ∀ (l : List FRecordedAction) (c : ℚ),
    l.foldl (fun m a => max m a.timestamp) c = c ∨
      ∃ a ∈ l, l.foldl (fun m b => max m b.timestamp) c = a.timestamp := by
  intro l
  induction l with
  | nil => intro c; exact Or.inl rfl
  | cons b rest ih =>
      intro c
      rcases ih (max c b.timestamp) with h | h
      · rcases max_choice c b.timestamp with hm | hm
        · left; simpa [hm] using h
        · right
          refine ⟨b, by simp, ?_⟩
          simpa [hm] using h
      · obtain ⟨a, ha, hEq⟩ := h
        exact Or.inr ⟨a, List.mem_cons.mpr (Or.inr ha), hEq⟩

lemma getDuration_ge (l : List FRecordedAction) (a : FRecordedAction) (ha : a ∈ l) :
    a.timestamp ≤ getDuration l := by
  unfold getDuration
  cases l with
  | nil => simp at ha
  | cons b rest =>
      rw [if_neg (by simp)]
      exact mem_le_foldl_max (b :: rest) 0 a ha

lemma getDuration_attained (l : List FRecordedAction)
    (hpos : ∀ a ∈ l, 0 ≤ a.timestamp) (hne : l ≠ []) :
    ∃ a ∈ l, getDuration l = a.timestamp := by
  have hdur : getDuration l = l.foldl (fun m a => max m a.timestamp) 0 := by
    unfold getDuration
    cases l with
    | nil => exact absurd rfl hne
    | cons b rest => rw [if_neg (by simp)]
  rcases foldl_max_attained l 0 with h | h
  · cases l with
    | nil => exact absurd rfl hne
    | cons b rest =>
        refine ⟨b, by simp, ?_⟩
        have h1 : b.timestamp ≤ getDuration (b :: rest) :=
          getDuration_ge (b :: rest) b (by simp)
        have h2 : 0 ≤ b.timestamp := hpos b (by simp)
        rw [hdur, h] at h1 ⊢
        exact le_antisymm h1 h2 |>.symm ▸ (le_antisymm h1 h2).symm
  · obtain ⟨a, ha, hEq⟩ := h
    exact ⟨a, ha, by rw [hdur, hEq]⟩

/-- Metadata consistency and sortedness maintained by every `AddAction`. -/
def timelineWellFormed (tl : UActionTimeline) : Prop :=
  sortedByTimestamp tl.actions ∧
    tl.metadataDuration = getDuration tl.actions ∧
    tl.metadataActionCount = tl.actions.length

lemma addAction_wellFormed (a : FRecordedAction) (tl : UActionTimeline) :
    timelineWellFormed (addAction a tl) :=
  ⟨sortActions_sorted (tl.actions ++ [a]), rfl, rfl⟩

lemma foldl_addAction_wellFormed (acts : List FRecordedAction) :
    ∀ tl, timelineWellFormed tl →
      timelineWellFormed (acts.foldl (fun t a => addAction a t) tl) := by
  induction acts with
  | nil => intro tl h; exact h
  | cons a rest ih =>
      intro tl h
      simp only [List.foldl_cons]
      exact ih (addAction a tl) (addAction_wellFormed a tl)

lemma foldl_addAction_mem (acts : List FRecordedAction) :
    ∀ tl x, x ∈ (acts.foldl (fun t a => addAction a t) tl).actions →
      x ∈ tl.actions ∨ x ∈ acts := by
  induction acts with
  | nil => intro tl x h; exact Or.inl h
  | cons a rest ih =>
      intro tl x h
      simp only [List.foldl_cons] at h
      rcases ih (addAction a tl) x h with h' | h'
      · unfold addAction at h'
        simp only at h'
        rw [mem_sortActions] at h'
        rcases List.mem_append.mp h' with h'' | h''
        · exact Or.inl h''
        · simp at h''
          simp [h'']
      · exact Or.inr (List.mem_cons.mpr (Or.inr h'))

/-- Every added action has a non-negative timestamp — the data model's
constraint on `FRecordedAction.Timestamp`. -/
def nonnegTimestamps (l : List FRecordedAction) : Prop :=
  ∀ a ∈ l, 0 ≤ a.timestamp

/-- The invariant asserted by the claim: sorted storage, duration equal
to the maximum stored timestamp (0 when empty), metadata in sync. -/
def timelineInvariantHolds (tl : UActionTimeline) : Prop :=
  sortedByTimestamp tl.actions ∧
    (tl.actions = [] → getDuration tl.actions = 0) ∧
    (∀ a ∈ tl.actions, a.timestamp ≤ getDuration tl.actions) ∧
    (tl.actions ≠ [] → ∃ a ∈ tl.actions, getDuration tl.actions = a.timestamp) ∧
    tl.metadataDuration = getDuration tl.actions ∧
    tl.metadataActionCount = tl.actions.length

/-- C8.  After any sequence of `AddAction` calls (timestamps
non-negative per the data model), the stored sequence is non-decreasing
by timestamp and the duration equals the maximum stored timestamp — 0
for an empty timeline — with the metadata fields in sync. -/
theorem addAction_sorted_maxDuration (acts : List FRecordedAction)
    (h : nonnegTimestamps acts) :
    timelineInvariantHolds (buildTimeline acts) := by
  have hwf : timelineWellFormed (buildTimeline acts) :=
    foldl_addAction_wellFormed acts emptyTimeline
      ⟨List.Pairwise.nil, rfl, rfl⟩
  have hmem : ∀ x ∈ (buildTimeline acts).actions, 0 ≤ x.timestamp := by
    intro x hx
    rcases foldl_addAction_mem acts emptyTimeline x hx with h' | h'
    · simp [emptyTimeline] at h'
    · exact h x h'
  refine ⟨hwf.1, ?_, ?_, ?_, hwf.2.1, hwf.2.2⟩
  · intro he; simp [getDuration, he]
  · intro a ha; exact getDuration_ge _ a ha
  · intro hne; exact getDuration_attained _ hmem hne

/-- Concrete `AddAction` sequence for the C8 witness. -/
def c8Acts : List FRecordedAction :=
  [⟨1, "Input", "Jump", .inputValue 1 0⟩,
   ⟨0, "Movement", "MoveToLocation", .movement ⟨1, 2, 3⟩⟩,
   ⟨1 / 2, "Rotation", "RotateTo", .rotation ⟨0, 90, 0⟩⟩]

/-- Witness for C8 at a concrete out-of-order `AddAction` sequence. -/
theorem addAction_sorted_maxDuration_witness :
    nonnegTimestamps c8Acts ∧ timelineInvariantHolds (buildTimeline c8Acts) := by
  have h : nonnegTimestamps c8Acts := by
    unfold nonnegTimestamps c8Acts
    intro a ha
    simp only [List.mem_cons, List.not_mem_nil, or_false] at ha
    rcases ha with h | h | h <;> (rw [h]; try norm_num)
  exact ⟨h, addAction_sorted_maxDuration c8Acts h⟩

/-! ## Playback scheduler: `UActionPlayback` -/

/-- `EPlaybackState`. -/
inductive EPlaybackState
  | idle
  | playing
  | paused
  | finished
deriving DecidableEq, Repr

/-- `EPlaybackMode`. -/
inductive EPlaybackMode
  | once
  | loop
  | loopCount
deriving DecidableEq, Repr

/-- `UActionPlayback`.  `timeline` is `CurrentTimeline->GetActions()`;
`executed` is the dispatch log: the timeline index passed to
`ExecuteAction`/`OnActionExecuted`, in call order (the claims count and
order these dispatches). -/
structure UActionPlayback where
  playbackState : EPlaybackState
  playbackTime : ℚ
  playbackSpeed : ℚ
  playbackMode : EPlaybackMode
  desiredLoopCount : ℤ
  currentLoopCount : ℤ
  timeTolerance : ℚ
  nextActionIndex : ℕ
  timeline : List FRecordedAction
  executed : List ℕ
deriving DecidableEq, Repr

/-- The `while` loop of `ExecutePendingActions` (ActionPlayback.cpp
lines 212-238) with explicit fuel; `executePendingActions` supplies
fuel covering the whole remaining timeline, so the loop never runs dry.
Each iteration either dispatches `timeline[nextActionIndex]` (whose
timestamp is within `PlaybackTime + TimeTolerance`) and advances the
cursor, or breaks. -/
def execPendingAux : ℕ → UActionPlayback → UActionPlayback
  | 0, s => s
  | fuel + 1, s =>
      if h : s.nextActionIndex < s.timeline.length then
        if (s.timeline.get ⟨s.nextActionIndex, h⟩).timestamp ≤
            s.playbackTime + s.timeTolerance then
          execPendingAux fuel
            { s with
              executed := s.executed ++ [s.nextActionIndex]
              nextActionIndex := s.nextActionIndex + 1 }
        else s
      else s

/-- `ExecutePendingActions`. -/
def executePendingActions (s : UActionPlayback) : UActionPlayback :=
  execPendingAux (s.timeline.length - s.nextActionIndex) s

/-- The `bShouldContinue` computation in `HandleLoopCompletion`
(ActionPlayback.cpp lines 397-412), evaluated at the already
incremented loop counter. -/
def shouldContinueLoop (mode : EPlaybackMode) (newCount desired : ℤ) : Bool :=
  match mode with
  | .once => false
  | .loop => true
  | .loopCount => decide (newCount < desired)

/-- `HandleLoopCompletion` (ActionPlayback.cpp lines 392-428). -/
def handleLoopCompletion (s : UActionPlayback) : UActionPlayback :=
  if shouldContinueLoop s.playbackMode (s.currentLoopCount + 1) s.desiredLoopCount then
    { s with
      currentLoopCount := s.currentLoopCount + 1
      playbackTime := 0
      nextActionIndex := 0 }
  else
    { s with
      currentLoopCount := s.currentLoopCount + 1
      playbackState := .finished }

/-- The completion check at the end of `UpdatePlayback` (lines 205-209). -/
def finishCheck (s : UActionPlayback) : UActionPlayback :=
  if getDuration s.timeline ≤ s.playbackTime then handleLoopCompletion s else s

/-- `UpdatePlayback` (ActionPlayback.cpp lines 190-210).  The claims'
premise — a successful `Play` — guarantees the timeline and AutoDriver
references whose absence the source guards against. -/
def updatePlayback (deltaTime : ℚ) (s : UActionPlayback) : UActionPlayback :=
  finishCheck (executePendingActions
    { s with playbackTime := s.playbackTime + deltaTime * s.playbackSpeed })

/-- `TickComponent` (lines 37-45): only a `Playing` scheduler advances. -/
def tickPlayback (deltaTime : ℚ) (s : UActionPlayback) : UActionPlayback :=
  if s.playbackState = .playing then updatePlayback deltaTime s else s

/-- Drive the scheduler with a sequence of frame deltas. -/
def runPlayback (deltas : List ℚ) (s : UActionPlayback) : UActionPlayback :=
  deltas.foldl (fun acc d => tickPlayback d acc) s

/-- The state `Play` (lines 47-64) leaves a scheduler in after accepting
a timeline: everything reset and `Playing`. -/
def startedPlayback (tl : List FRecordedAction) (mode : EPlaybackMode)
    (desired : ℤ) (speed tol : ℚ) : UActionPlayback :=
  { playbackState := .playing
    playbackTime := 0
    playbackSpeed := speed
    playbackMode := mode
    desiredLoopCount := desired
    currentLoopCount := 0
    timeTolerance := tol
    nextActionIndex := 0
    timeline := tl
    executed := [] }

/-- `Play` rejects a null or empty timeline. -/
def play (tl : List FRecordedAction) (mode : EPlaybackMode)
    (desired : ℤ) (speed tol : ℚ) : Option UActionPlayback :=
  if tl.isEmpty then none else some (startedPlayback tl mode desired speed tol)

/-- `FMath::Clamp`. -/
def clampQ (x lo hi : ℚ) : ℚ :=
  if x < lo then lo else if hi < x then hi else x

/-- The cursor scan in `SeekToTime` (lines 117-126): index of the first
action with `Timestamp > PlaybackTime`; the loop leaves the cursor at
its initialisation value 0 when no such action exists. -/
def findFirstAfterIdx (t : ℚ) : List FRecordedAction → Option ℕ
  | [] => none
  | a :: rest =>
      if t < a.timestamp then some 0
      else (findFirstAfterIdx t rest).map (fun i => i + 1)

/-- `SeekToTime` (ActionPlayback.cpp lines 106-129). -/
def seekToTime (t : ℚ) (s : UActionPlayback) : UActionPlayback :=
  { s with
    playbackTime := clampQ t 0 (getDuration s.timeline)
    nextActionIndex :=
      (findFirstAfterIdx (clampQ t 0 (getDuration s.timeline)) s.timeline).getD 0 }

/-- Number of timeline actions whose timestamp is within the firing
bound `c` (= clock + tolerance). -/
def firedCount (tl : List FRecordedAction) (c : ℚ) : ℕ :=
  tl.countP (fun a => decide (a.timestamp ≤ c))

/-- Every delta in the sequence is positive. -/
def positiveDeltas (l : List ℚ) : Prop :=
  ∀ d ∈ l, 0 < d

lemma firedCount_le_length (tl : List FRecordedAction) (c : ℚ) :
    firedCount tl c ≤ tl.length :=
  List.countP_le_length _

lemma firedCount_mono (tl : List FRecordedAction) (c c' : ℚ) (h : c ≤ c') :
    firedCount tl c ≤ firedCount tl c' := by
  unfold firedCount
  induction tl with
  | nil => simp
  | cons a rest ih =>
      simp only [List.countP_cons]
      have hstep : (if decide (a.timestamp ≤ c) = true then 1 else 0) ≤
          (if decide (a.timestamp ≤ c') = true then 1 else 0) := by
        by_cases ha : a.timestamp ≤ c
        · rw [if_pos (by simpa using ha), if_pos (by simpa using le_trans ha h)]
        · rw [if_neg (by simpa using ha)]
          exact Nat.zero_le _
      omega

lemma firedCount_all (tl : List FRecordedAction) (c : ℚ)
    (h : ∀ a ∈ tl, a.timestamp ≤ c) : firedCount tl c = tl.length := by
  unfold firedCount
  rw [List.countP_eq_length]
  intro a ha
  simpa using h a ha

lemma firedCount_index_iff :
    ∀ (tl : List FRecordedAction), sortedByTimestamp tl → ∀ (c : ℚ) (i : ℕ)
      (h : i < tl.length),
      ((tl.get ⟨i, h⟩).timestamp ≤ c ↔ i < firedCount tl c) := by
  intro tl
  induction tl with
  | nil => intro _ c i h; simp at h
  | cons a rest ih =>
      intro hs c i h
      have hhead : ∀ b ∈ rest, a.timestamp ≤ b.timestamp :=
        (List.pairwise_cons.mp hs).1
      have hs' : sortedByTimestamp rest := (List.pairwise_cons.mp hs).2
      cases i with
      | zero =>
          constructor
          · intro hle
            unfold firedCount
            simp only [List.countP_cons]
            rw [if_pos (by simpa using hle)]
            omega
          · intro hlt
            by_contra hnle
            have hna : ¬a.timestamp ≤ c := hnle
            have hz : firedCount rest c = 0 := by
              unfold firedCount
              rw [List.countP_eq_zero]
              intro b hb
              simp only [decide_eq_true_eq]
              intro hb'
              exact hna (le_trans (hhead b hb) hb')
            have hc : firedCount (a :: rest) c = 0 := by
              unfold firedCount at hz ⊢
              simp only [List.countP_cons, hz]
              rw [if_neg (by simpa using hna)]
            omega
      | succ j =>
          have hj : j < rest.length := by simpa using h
          have hrec := ih hs' c j hj
          have hget : ((a :: rest).get ⟨j + 1, h⟩) = rest.get ⟨j, hj⟩ := rfl
          rw [hget]
          by_cases ha : a.timestamp ≤ c
          · have hcount : firedCount (a :: rest) c = firedCount rest c + 1 := by
              unfold firedCount
              simp only [List.countP_cons]
              rw [if_pos (by simpa using ha)]
            rw [hcount, hrec]
            omega
          · have hz : firedCount rest c = 0 := by
              unfold firedCount
              rw [List.countP_eq_zero]
              intro b hb
              simp only [decide_eq_true_eq]
              intro hb'
              exact ha (le_trans (hhead b hb) hb')
            have hcount : firedCount (a :: rest) c = 0 := by
              unfold firedCount at hz ⊢
              simp only [List.countP_cons, hz]
              rw [if_neg (by simpa using ha)]
            constructor
            · intro hle
              have hmem := List.get_mem rest j hj
              exact absurd hle (by
                intro hle'
                exact ha (le_trans (hhead _ hmem) hle'))
            · intro hlt
              rw [hcount] at hlt
              omega

lemma execPending_done (s : UActionPlayback)
    (heq : firedCount s.timeline (s.playbackTime + s.timeTolerance) = s.nextActionIndex) :
    ({ s with
        nextActionIndex := firedCount s.timeline (s.playbackTime + s.timeTolerance)
        executed := s.executed ++ List.range' s.nextActionIndex
          (firedCount s.timeline (s.playbackTime + s.timeTolerance) - s.nextActionIndex) } :
      UActionPlayback) = s := by
  rw [heq, Nat.sub_self]
  simp

lemma execPendingAux_succ (fuel : ℕ) (s : UActionPlayback) :
    execPendingAux (fuel + 1) s =
      if h : s.nextActionIndex < s.timeline.length then
        if (s.timeline.get ⟨s.nextActionIndex, h⟩).timestamp ≤
            s.playbackTime + s.timeTolerance then
          execPendingAux fuel
            { s with
              executed := s.executed ++ [s.nextActionIndex]
              nextActionIndex := s.nextActionIndex + 1 }
        else s
      else s := rfl

lemma execPendingAux_spec : ∀ (fuel : ℕ) (s : UActionPlayback),
    s.timeline.length - s.nextActionIndex ≤ fuel →
    sortedByTimestamp s.timeline →
    s.nextActionIndex ≤ firedCount s.timeline (s.playbackTime + s.timeTolerance) →
    execPendingAux fuel s =
      { s with
        nextActionIndex := firedCount s.timeline (s.playbackTime + s.timeTolerance)
        executed := s.executed ++ List.range' s.nextActionIndex
          (firedCount s.timeline (s.playbackTime + s.timeTolerance) - s.nextActionIndex) } := by
  intro fuel
  induction fuel with
  | zero =>
      intro s hfuel hs hidx
      have hlen := firedCount_le_length s.timeline (s.playbackTime + s.timeTolerance)
      have heq : firedCount s.timeline (s.playbackTime + s.timeTolerance) =
          s.nextActionIndex := by omega
      rw [execPending_done s heq]
      rfl
  | succ fuel ih =>
      intro s hfuel hs hidx
      by_cases h : s.nextActionIndex < s.timeline.length
      · by_cases hts : (s.timeline.get ⟨s.nextActionIndex, h⟩).timestamp ≤
            s.playbackTime + s.timeTolerance
        · have hik : s.nextActionIndex <
              firedCount s.timeline (s.playbackTime + s.timeTolerance) :=
            (firedCount_index_iff s.timeline hs _ s.nextActionIndex h).mp hts
          rw [execPendingAux_succ, dif_pos h, if_pos hts]
          have hrec := ih
            { s with
              executed := s.executed ++ [s.nextActionIndex]
              nextActionIndex := s.nextActionIndex + 1 }
            (by
              show s.timeline.length - (s.nextActionIndex + 1) ≤ fuel
              omega)
            (by
              show sortedByTimestamp s.timeline
              exact hs)
            (by
              show s.nextActionIndex + 1 ≤
                firedCount s.timeline (s.playbackTime + s.timeTolerance)
              omega)
          rw [hrec]
          dsimp only
          have hexec : (s.executed ++ [s.nextActionIndex]) ++
              List.range' (s.nextActionIndex + 1)
                (firedCount s.timeline (s.playbackTime + s.timeTolerance) -
                  (s.nextActionIndex + 1)) =
              s.executed ++ List.range' s.nextActionIndex
                (firedCount s.timeline (s.playbackTime + s.timeTolerance) -
                  s.nextActionIndex) := by
            rw [List.append_assoc]
            congr 1
            have hsplit : firedCount s.timeline (s.playbackTime + s.timeTolerance) -
                s.nextActionIndex =
                (firedCount s.timeline (s.playbackTime + s.timeTolerance) -
                  (s.nextActionIndex + 1)) + 1 := by omega
            rw [hsplit, List.range'_succ]
            rfl
          rw [hexec]
        · have hk : ¬ s.nextActionIndex <
              firedCount s.timeline (s.playbackTime + s.timeTolerance) := fun hlt =>
            hts ((firedCount_index_iff s.timeline hs _ s.nextActionIndex h).mpr hlt)
          have heq : firedCount s.timeline (s.playbackTime + s.timeTolerance) =
              s.nextActionIndex := by omega
          rw [execPendingAux_succ, dif_pos h, if_neg hts, execPending_done s heq]
      · have hlen := firedCount_le_length s.timeline (s.playbackTime + s.timeTolerance)
        have heq : firedCount s.timeline (s.playbackTime + s.timeTolerance) =
            s.nextActionIndex := by omega
        rw [execPendingAux_succ, dif_neg h, execPending_done s heq]

lemma executePendingActions_spec (s : UActionPlayback)
    (hs : sortedByTimestamp s.timeline)
    (hidx : s.nextActionIndex ≤ firedCount s.timeline (s.playbackTime + s.timeTolerance)) :
    executePendingActions s =
      { s with
        nextActionIndex := firedCount s.timeline (s.playbackTime + s.timeTolerance)
        executed := s.executed ++ List.range' s.nextActionIndex
          (firedCount s.timeline (s.playbackTime + s.timeTolerance) - s.nextActionIndex) } :=
  execPendingAux_spec (s.timeline.length - s.nextActionIndex) s (le_refl _) hs hidx

lemma range_append_range' : ∀ (m n : ℕ),
    List.range n ++ List.range' n m = List.range (n + m) := by
  intro m
  induction m with
  | zero => intro n; simp
  | succ m ih =>
      intro n
      rw [List.range'_succ]
      have h1 : List.range n ++ n :: List.range' (n + 1) m =
          (List.range n ++ [n]) ++ List.range' (n + 1) m := by
        simp
      rw [h1, ← List.range_succ, ih (n + 1)]
      congr 1
      omega

/-- Invariant of a once-mode, speed-1 run after `t` seconds of virtual
time: either still `Playing` with the cursor within the firing bound and
the dispatch log an exact prefix of timeline indices, or `Finished` with
every action dispatched once. -/
def invOnce (tl : List FRecordedAction) (tol t : ℚ) (s : UActionPlayback) : Prop :=
  s.timeline = tl ∧ s.playbackSpeed = 1 ∧ s.playbackMode = .once ∧
    s.timeTolerance = tol ∧
    ((s.playbackState = .playing ∧ s.playbackTime = t ∧
        s.nextActionIndex ≤ firedCount tl (t + tol) ∧
        s.executed = List.range s.nextActionIndex) ∨
      (s.playbackState = .finished ∧ s.executed = List.range tl.length ∧
        firedCount tl (t + tol) = tl.length))

/-- Strengthening of `invOnce` that holds right after a tick: in the
`Playing` case the cursor sits exactly at the firing bound. -/
def invOncePost (tl : List FRecordedAction) (tol t : ℚ) (s : UActionPlayback) : Prop :=
  s.timeline = tl ∧ s.playbackSpeed = 1 ∧ s.playbackMode = .once ∧
    s.timeTolerance = tol ∧
    ((s.playbackState = .playing ∧ s.playbackTime = t ∧
        s.nextActionIndex = firedCount tl (t + tol) ∧
        s.executed = List.range s.nextActionIndex) ∨
      (s.playbackState = .finished ∧ s.executed = List.range tl.length ∧
        firedCount tl (t + tol) = tl.length))

lemma invOncePost_weaken (tl : List FRecordedAction) (tol t : ℚ)
    (s : UActionPlayback) (h : invOncePost tl tol t s) : invOnce tl tol t s := by
  obtain ⟨h1, h2, h3, h4, hcase⟩ := h
  refine ⟨h1, h2, h3, h4, ?_⟩
  rcases hcase with ⟨hp, ht, hi, he⟩ | hfin
  · exact Or.inl ⟨hp, ht, le_of_eq hi, he⟩
  · exact Or.inr hfin

lemma tickPlayback_invOnce (tl : List FRecordedAction) (tol : ℚ)
    (hs : sortedByTimestamp tl) (htol : 0 ≤ tol) (t d : ℚ) (hd : 0 < d)
    (s : UActionPlayback) (hinv : invOnce tl tol t s) :
    invOncePost tl tol (t + d) (tickPlayback d s) := by
  obtain ⟨htl, hsp, hpm, htt, hcase⟩ := hinv
  rcases hcase with ⟨hps, htime, hidx, hexec⟩ | ⟨hps, hexec, hall⟩
  · -- Playing: the tick advances time, fires pending actions, then
    -- checks for completion.
    have htick : tickPlayback d s = updatePlayback d s := by
      unfold tickPlayback
      rw [if_pos hps]
    have hKval : firedCount
        ({ s with playbackTime := s.playbackTime + d * s.playbackSpeed} :
          UActionPlayback).timeline
        (({ s with playbackTime := s.playbackTime + d * s.playbackSpeed} :
          UActionPlayback).playbackTime +
          ({ s with playbackTime := s.playbackTime + d * s.playbackSpeed} :
            UActionPlayback).timeTolerance) = firedCount tl (t + d + tol) := by
      show firedCount s.timeline ((s.playbackTime + d * s.playbackSpeed) + s.timeTolerance) = _
      rw [htl, htime, hsp, htt, mul_one]
    have hmono : firedCount tl (t + tol) ≤ firedCount tl (t + d + tol) :=
      firedCount_mono tl _ _ (by linarith)
    have hidx2 : ({ s with playbackTime := s.playbackTime + d * s.playbackSpeed} :
        UActionPlayback).nextActionIndex ≤ firedCount
        ({ s with playbackTime := s.playbackTime + d * s.playbackSpeed} :
          UActionPlayback).timeline
        (({ s with playbackTime := s.playbackTime + d * s.playbackSpeed} :
          UActionPlayback).playbackTime +
          ({ s with playbackTime := s.playbackTime + d * s.playbackSpeed} :
            UActionPlayback).timeTolerance) := by
      rw [hKval]
      show s.nextActionIndex ≤ _
      omega
    have hspec := executePendingActions_spec
      { s with playbackTime := s.playbackTime + d * s.playbackSpeed }
      (by show sortedByTimestamp s.timeline; rw [htl]; exact hs) hidx2
    rw [hKval] at hspec
    have hidxK : s.nextActionIndex ≤ firedCount tl (t + d + tol) := le_trans hidx hmono
    have hexecK : s.executed ++ List.range' s.nextActionIndex
        (firedCount tl (t + d + tol) - s.nextActionIndex) =
        List.range (firedCount tl (t + d + tol)) := by
      rw [hexec, range_append_range']
      congr 1
      omega
    rw [htick]
    unfold updatePlayback
    rw [hspec]
    unfold finishCheck
    by_cases hfin : getDuration tl ≤ t + d
    · rw [if_pos (by
        show getDuration s.timeline ≤ s.playbackTime + d * s.playbackSpeed
        rw [htl, htime, hsp, mul_one]
        exact hfin)]
      have hcont : shouldContinueLoop s.playbackMode (s.currentLoopCount + 1)
          s.desiredLoopCount = false := by
        rw [hpm]
        rfl
      unfold handleLoopCompletion
      rw [if_neg (by
        show ¬ (shouldContinueLoop s.playbackMode (s.currentLoopCount + 1)
          s.desiredLoopCount = true)
        rw [hcont]
        simp)]
      have hlenK : firedCount tl (t + d + tol) = tl.length := by
        apply firedCount_all
        intro a ha
        have h1 : a.timestamp ≤ getDuration tl := getDuration_ge tl a ha
        linarith
      refine ⟨htl, hsp, hpm, htt, Or.inr ⟨rfl, ?_, ?_⟩⟩
      · show s.executed ++ _ = _
        rw [hexecK, hlenK]
      · exact hlenK
    · rw [if_neg (by
        show ¬ (getDuration s.timeline ≤ s.playbackTime + d * s.playbackSpeed)
        rw [htl, htime, hsp, mul_one]
        exact hfin)]
      refine ⟨htl, hsp, hpm, htt, Or.inl ⟨hps, ?_, rfl, ?_⟩⟩
      · show s.playbackTime + d * s.playbackSpeed = t + d
        rw [htime, hsp, mul_one]
      · show s.executed ++ _ = List.range (firedCount tl (t + d + tol))
        exact hexecK
  · -- Finished is absorbing: the tick is a no-op.
    have htick : tickPlayback d s = s := by
      unfold tickPlayback
      rw [if_neg (by rw [hps]; simp)]
    rw [htick]
    have hlen : firedCount tl (t + d + tol) = tl.length :=
      le_antisymm (firedCount_le_length tl _)
        (by
          have := firedCount_mono tl (t + tol) (t + d + tol) (by linarith)
          omega)
    exact ⟨htl, hsp, hpm, htt, Or.inr ⟨hps, hexec, hlen⟩⟩

lemma runPlayback_invOnce (tl : List FRecordedAction) (tol : ℚ)
    (hs : sortedByTimestamp tl) (htol : 0 ≤ tol) :
    ∀ (deltas : List ℚ), deltas ≠ [] → positiveDeltas deltas →
      ∀ (t : ℚ) (s : UActionPlayback), invOnce tl tol t s →
        invOncePost tl tol (t + deltas.sum) (runPlayback deltas s) := by
  intro deltas
  induction deltas with
  | nil => intro h; exact absurd rfl h
  | cons d rest ih =>
      intro _ hpos t s hinv
      have hd : 0 < d := hpos d (by simp)
      have hpost := tickPlayback_invOnce tl tol hs htol t d hd s hinv
      cases rest with
      | nil =>
          show invOncePost tl tol (t + (d + 0)) (tickPlayback d s)
          rw [add_zero]
          exact hpost
      | cons d2 rest2 =>
          have hrest : (d2 :: rest2 : List ℚ) ≠ [] := by simp
          have hpos2 : positiveDeltas (d2 :: rest2) := fun x hx =>
            hpos x (List.mem_cons.mpr (Or.inr hx))
          have := ih hrest hpos2 (t + d) (tickPlayback d s)
            (invOncePost_weaken tl tol (t + d) _ hpost)
          show invOncePost tl tol (t + (d + (d2 :: rest2).sum))
            (runPlayback (d2 :: rest2) (tickPlayback d s))
          have harith : t + (d + (d2 :: rest2).sum) = (t + d) + (d2 :: rest2).sum := by ring
          rw [harith]
          exact this

/-- C5 (amended).  With loop mode `Once` and speed 1, driving a
freshly started scheduler with any non-empty sequence of positive frame
deltas summing to `T` dispatches exactly the actions with
`timestamp ≤ T + TimeTolerance` — in timeline (timestamp) order, each
exactly once — independently of how the total `T` is chunked into
deltas: the dispatch log is `range (firedCount tl (T + tol))`, a
function of the sum alone. -/
theorem playback_dispatch_tolerance_window (tl : List FRecordedAction)
    (tol : ℚ) (deltas : List ℚ)
    (hs : sortedByTimestamp tl) (hne : tl ≠ []) (hdne : deltas ≠ [])
    (hpos : positiveDeltas deltas) (htol : 0 ≤ tol) :
    (runPlayback deltas (startedPlayback tl .once 1 1 tol)).executed =
      List.range (firedCount tl (deltas.sum + tol)) := by
  have hstart : invOnce tl tol 0 (startedPlayback tl .once 1 1 tol) :=
    ⟨rfl, rfl, rfl, rfl, Or.inl ⟨rfl, rfl, Nat.zero_le _, rfl⟩⟩
  have hpost := runPlayback_invOnce tl tol hs htol deltas hdne hpos 0
    (startedPlayback tl .once 1 1 tol) hstart
  rw [zero_add] at hpost
  obtain ⟨_, _, _, _, hcase⟩ := hpost
  rcases hcase with ⟨_, _, hidx, hexec⟩ | ⟨_, hexec, hall⟩
  · rw [hexec, hidx]
  · rw [hexec, hall]

/-- Timeline and deltas for the C5 witness: two chunkings of the same
total drive the same dispatch log. -/
def c5Timeline : List FRecordedAction :=
  [⟨0, "Input", "Jump", .inputValue 1 0⟩,
   ⟨1 / 2, "Movement", "MoveToLocation", .movement ⟨1, 2, 3⟩⟩,
   ⟨1, "Input", "Fire", .inputValue 1 0⟩]

/-- Witness for C5 (amended) at a concrete timeline and chunking. -/
theorem playback_dispatch_tolerance_window_witness :
    sortedByTimestamp c5Timeline ∧ c5Timeline ≠ [] ∧
      ([1 / 4, 3 / 4] : List ℚ) ≠ [] ∧ positiveDeltas [1 / 4, 3 / 4] ∧
      (0 : ℚ) ≤ 1 / 20 ∧
      (runPlayback [1 / 4, 3 / 4]
          (startedPlayback c5Timeline .once 1 1 (1 / 20))).executed =
        List.range (firedCount c5Timeline (([1 / 4, 3 / 4] : List ℚ).sum + 1 / 20)) := by
  have h1 : sortedByTimestamp c5Timeline := by
    unfold sortedByTimestamp c5Timeline
    norm_num [List.pairwise_cons]
  have h2 : c5Timeline ≠ [] := by simp [c5Timeline]
  have h3 : ([1 / 4, 3 / 4] : List ℚ) ≠ [] := by simp
  have h4 : positiveDeltas [1 / 4, 3 / 4] := by
    intro d hd
    simp only [List.mem_cons, List.not_mem_nil, or_false] at hd
    rcases hd with h | h <;> (rw [h]; norm_num)
  have h5 : (0 : ℚ) ≤ 1 / 20 := by norm_num
  exact ⟨h1, h2, h3, h4, h5,
    playback_dispatch_tolerance_window c5Timeline (1 / 20) [1 / 4, 3 / 4] h1 h2 h3 h4 h5⟩

/-- C5 counterexample: an action 0.03 s beyond the accumulated time
still fires, because the source dispatches while
`Timestamp <= PlaybackTime + TimeTolerance` with the default 50 ms
tolerance — the fired set is not `timestamp ≤ T`. -/
theorem playback_fires_beyond_sum :
    (runPlayback [1]
        (startedPlayback [⟨103 / 100, "Input", "Jump", .inputValue 1 0⟩] .once 1 1
          (1 / 20))).executed = [0] ∧
      ¬((103 : ℚ) / 100 ≤ 1) := by
  constructor
  · norm_num [runPlayback, tickPlayback, startedPlayback, updatePlayback,
      executePendingActions, execPendingAux, finishCheck, handleLoopCompletion,
      shouldContinueLoop, getDuration, List.foldl]
  · norm_num

/-- Dispatch log of `m` complete passes over a timeline of `n` actions. -/
def passes (m n : ℕ) : List ℕ :=
  match m with
  | 0 => []
  | m + 1 => passes m n ++ List.range n

/-- Invariant of a `LoopCount(3)`, speed-1 run: while `Playing`, between
0 and 2 completed passes with the current pass's dispatches an exact
prefix; once `Finished`, exactly 3 completed passes with everything
dispatched three times. -/
def invLoop3 (tl : List FRecordedAction) (tol : ℚ) (s : UActionPlayback) : Prop :=
  s.timeline = tl ∧ s.playbackSpeed = 1 ∧ s.playbackMode = .loopCount ∧
    s.desiredLoopCount = 3 ∧ s.timeTolerance = tol ∧
    ((s.playbackState = .playing ∧ 0 ≤ s.currentLoopCount ∧ s.currentLoopCount < 3 ∧
        s.nextActionIndex ≤ firedCount tl (s.playbackTime + tol) ∧
        s.executed = passes s.currentLoopCount.toNat tl.length ++
          List.range s.nextActionIndex) ∨
      (s.playbackState = .finished ∧ s.currentLoopCount = 3 ∧
        s.executed = passes 3 tl.length))

lemma tickPlayback_invLoop3 (tl : List FRecordedAction) (tol : ℚ)
    (hs : sortedByTimestamp tl) (htol : 0 ≤ tol) (d : ℚ) (hd : 0 < d)
    (s : UActionPlayback) (hinv : invLoop3 tl tol s) :
    invLoop3 tl tol (tickPlayback d s) := by
  obtain ⟨htl, hsp, hpm, hdl, htt, hcase⟩ := hinv
  rcases hcase with ⟨hps, hcl0, hcl3, hidx, hexec⟩ | ⟨hps, hcl, hexec⟩
  · have htick : tickPlayback d s = updatePlayback d s := by
      unfold tickPlayback
      rw [if_pos hps]
    have hKval : firedCount
        ({ s with playbackTime := s.playbackTime + d * s.playbackSpeed} :
          UActionPlayback).timeline
        (({ s with playbackTime := s.playbackTime + d * s.playbackSpeed} :
          UActionPlayback).playbackTime +
          ({ s with playbackTime := s.playbackTime + d * s.playbackSpeed} :
            UActionPlayback).timeTolerance) =
        firedCount tl (s.playbackTime + d + tol) := by
      show firedCount s.timeline ((s.playbackTime + d * s.playbackSpeed) + s.timeTolerance) = _
      rw [htl, hsp, htt, mul_one]
    have hmono : firedCount tl (s.playbackTime + tol) ≤
        firedCount tl (s.playbackTime + d + tol) :=
      firedCount_mono tl _ _ (by linarith)
    have hidx2 : ({ s with playbackTime := s.playbackTime + d * s.playbackSpeed} :
        UActionPlayback).nextActionIndex ≤ firedCount
        ({ s with playbackTime := s.playbackTime + d * s.playbackSpeed} :
          UActionPlayback).timeline
        (({ s with playbackTime := s.playbackTime + d * s.playbackSpeed} :
          UActionPlayback).playbackTime +
          ({ s with playbackTime := s.playbackTime + d * s.playbackSpeed} :
            UActionPlayback).timeTolerance) := by
      rw [hKval]
      show s.nextActionIndex ≤ _
      omega
    have hspec := executePendingActions_spec
      { s with playbackTime := s.playbackTime + d * s.playbackSpeed }
      (by show sortedByTimestamp s.timeline; rw [htl]; exact hs) hidx2
    rw [hKval] at hspec
    have hidxK : s.nextActionIndex ≤ firedCount tl (s.playbackTime + d + tol) :=
      le_trans hidx hmono
    have hexecK : s.executed ++ List.range' s.nextActionIndex
        (firedCount tl (s.playbackTime + d + tol) - s.nextActionIndex) =
        passes s.currentLoopCount.toNat tl.length ++
          List.range (firedCount tl (s.playbackTime + d + tol)) := by
      rw [hexec, List.append_assoc]
      congr 1
      rw [range_append_range']
      congr 1
      omega
    rw [htick]
    unfold updatePlayback
    rw [hspec]
    unfold finishCheck
    by_cases hfin : getDuration tl ≤ s.playbackTime + d
    · rw [if_pos (by
        show getDuration s.timeline ≤ s.playbackTime + d * s.playbackSpeed
        rw [htl, hsp, mul_one]
        exact hfin)]
      have hlenK : firedCount tl (s.playbackTime + d + tol) = tl.length := by
        apply firedCount_all
        intro a ha
        have h1 : a.timestamp ≤ getDuration tl := getDuration_ge tl a ha
        linarith
      by_cases hcl : s.currentLoopCount + 1 < 3
      · unfold handleLoopCompletion
        rw [if_pos (by
          show shouldContinueLoop s.playbackMode (s.currentLoopCount + 1)
            s.desiredLoopCount = true
          rw [hpm, hdl]
          simp [shouldContinueLoop, hcl])]
        refine ⟨htl, hsp, hpm, hdl, htt, Or.inl ⟨hps,
          (show (0 : ℤ) ≤ s.currentLoopCount + 1 by omega),
          (show s.currentLoopCount + 1 < 3 from hcl), Nat.zero_le _, ?_⟩⟩
        show s.executed ++ _ =
          passes (s.currentLoopCount + 1).toNat tl.length ++ List.range 0
        rw [hexecK, hlenK]
        have htn : (s.currentLoopCount + 1).toNat = s.currentLoopCount.toNat + 1 := by
          omega
        rw [htn]
        show _ = passes s.currentLoopCount.toNat tl.length ++
          List.range tl.length ++ List.range 0
        simp
      · unfold handleLoopCompletion
        rw [if_neg (by
          show ¬ (shouldContinueLoop s.playbackMode (s.currentLoopCount + 1)
            s.desiredLoopCount = true)
          rw [hpm, hdl]
          simp [shouldContinueLoop]
          omega)]
        refine ⟨htl, hsp, hpm, hdl, htt, Or.inr ⟨rfl,
          (show s.currentLoopCount + 1 = 3 by omega), ?_⟩⟩
        show s.executed ++ _ = passes 3 tl.length
        rw [hexecK, hlenK]
        have htn : s.currentLoopCount.toNat = 2 := by omega
        rw [htn]
        rfl
    · rw [if_neg (by
        show ¬ (getDuration s.timeline ≤ s.playbackTime + d * s.playbackSpeed)
        rw [htl, hsp, mul_one]
        exact hfin)]
      refine ⟨htl, hsp, hpm, hdl, htt, Or.inl ⟨hps, hcl0, hcl3, ?_, ?_⟩⟩
      · show firedCount tl (s.playbackTime + d + tol) ≤
          firedCount tl ((s.playbackTime + d * s.playbackSpeed) + tol)
        rw [hsp, mul_one]
      · show s.executed ++ _ =
          passes s.currentLoopCount.toNat tl.length ++
            List.range (firedCount tl (s.playbackTime + d + tol))
        exact hexecK
  · have htick : tickPlayback d s = s := by
      unfold tickPlayback
      rw [if_neg (by rw [hps]; simp)]
    rw [htick]
    exact ⟨htl, hsp, hpm, hdl, htt, Or.inr ⟨hps, hcl, hexec⟩⟩

lemma runPlayback_invLoop3 (tl : List FRecordedAction) (tol : ℚ)
    (hs : sortedByTimestamp tl) (htol : 0 ≤ tol) :
    ∀ (deltas : List ℚ), positiveDeltas deltas →
      ∀ (s : UActionPlayback), invLoop3 tl tol s →
        invLoop3 tl tol (runPlayback deltas s) := by
  intro deltas
  induction deltas with
  | nil => intro _ s hinv; exact hinv
  | cons d rest ih =>
      intro hpos s hinv
      have hd : 0 < d := hpos d (by simp)
      have hpos2 : positiveDeltas rest := fun x hx =>
        hpos x (List.mem_cons.mpr (Or.inr hx))
      exact ih hpos2 (tickPlayback d s)
        (tickPlayback_invLoop3 tl tol hs htol d hd s hinv)

lemma count_passes (m n i : ℕ) (hi : i < n) : (passes m n).count i = m := by
  induction m with
  | zero => simp [passes]
  | succ m ih =>
      show ((passes m n) ++ List.range n).count i = m + 1
      rw [List.count_append, ih,
        List.count_eq_one_of_mem (List.nodup_range n) (List.mem_range.mpr hi)]

/-- Loop semantics asserted by the claim, at the final state of a run:
`Finished` exactly when 3 passes have completed, and then the dispatch
log is 3 complete passes — every action dispatched exactly 3 times. -/
def loopCount3Semantics (tl : List FRecordedAction) (s : UActionPlayback) : Prop :=
  (s.playbackState = .finished ↔ s.currentLoopCount = 3) ∧
    (s.playbackState = .finished → s.executed = passes 3 tl.length) ∧
    (s.playbackState = .finished → ∀ i, i < tl.length → s.executed.count i = 3)

/-- At the start of each new pass, `HandleLoopCompletion` resets the
clock and the action cursor to 0. -/
def loopResetsClock : Prop :=
  ∀ s : UActionPlayback, s.playbackMode = .loopCount →
    s.currentLoopCount + 1 < s.desiredLoopCount →
    (handleLoopCompletion s).playbackTime = 0 ∧
      (handleLoopCompletion s).nextActionIndex = 0

/-- C6.  With `LoopCount(3)` at speed 1 over a non-empty timeline, for
every sequence of positive frame deltas the scheduler is `Finished`
exactly when 3 full passes have completed; at that point every action
has been dispatched exactly 3 times, and each pass restart reset the
clock and cursor to 0. -/
theorem playback_loopCount3_full_passes (tl : List FRecordedAction)
    (tol : ℚ) (deltas : List ℚ)
    (hs : sortedByTimestamp tl) (hne : tl ≠ [])
    (hpos : positiveDeltas deltas) (htol : 0 ≤ tol) :
    loopCount3Semantics tl
        (runPlayback deltas (startedPlayback tl .loopCount 3 1 tol)) ∧
      loopResetsClock := by
  have hstart : invLoop3 tl tol (startedPlayback tl .loopCount 3 1 tol) :=
    ⟨rfl, rfl, rfl, rfl, rfl, Or.inl ⟨rfl, le_refl 0,
      (show (0 : ℤ) < 3 by norm_num), Nat.zero_le _, rfl⟩⟩
  have hfin := runPlayback_invLoop3 tl tol hs htol deltas hpos
    (startedPlayback tl .loopCount 3 1 tol) hstart
  constructor
  · obtain ⟨_, _, _, _, _, hcase⟩ := hfin
    rcases hcase with ⟨hps, _, hcl3, _, _⟩ | ⟨hps, hcl, hexec⟩
    · refine ⟨⟨fun h => ?_, fun h => ?_⟩, fun h => ?_, fun h => ?_⟩
      · rw [hps] at h; exact absurd h (by simp)
      · exact absurd h (by omega)
      · rw [hps] at h; exact absurd h (by simp)
      · rw [hps] at h; exact absurd h (by simp)
    · refine ⟨⟨fun _ => hcl, fun _ => hps⟩, fun _ => hexec, fun _ i hi => ?_⟩
      rw [hexec]
      exact count_passes 3 tl.length i hi
  · intro s hpm hlt
    unfold handleLoopCompletion
    rw [if_pos (by
      rw [hpm]
      simp [shouldContinueLoop, hlt])]
    exact ⟨rfl, rfl⟩

/-- Timeline and deltas for the C6 witness: three ticks of 2 s each
complete three passes over a 1-second timeline. -/
def c6Timeline : List FRecordedAction :=
  [⟨0, "Input", "Jump", .inputValue 1 0⟩,
   ⟨1, "Input", "Fire", .inputValue 1 0⟩]

/-- Witness for C6 at a concrete timeline and delta sequence. -/
theorem playback_loopCount3_full_passes_witness :
    sortedByTimestamp c6Timeline ∧ c6Timeline ≠ [] ∧
      positiveDeltas [2, 2, 2] ∧ (0 : ℚ) ≤ 1 / 20 ∧
      (loopCount3Semantics c6Timeline
          (runPlayback [2, 2, 2] (startedPlayback c6Timeline .loopCount 3 1 (1 / 20))) ∧
        loopResetsClock) := by
  have h1 : sortedByTimestamp c6Timeline := by
    unfold sortedByTimestamp c6Timeline
    norm_num [List.pairwise_cons]
  have h2 : c6Timeline ≠ [] := by simp [c6Timeline]
  have h3 : positiveDeltas [2, 2, 2] := by
    intro d hd
    simp only [List.mem_cons, List.not_mem_nil, or_false] at hd
    rcases hd with h | h | h <;> (rw [h]; norm_num)
  have h4 : (0 : ℚ) ≤ 1 / 20 := by norm_num
  exact ⟨h1, h2, h3, h4,
    playback_loopCount3_full_passes c6Timeline (1 / 20) [2, 2, 2] h1 h2 h3 h4⟩

lemma findFirstAfterIdx_sorted (t : ℚ) :
    ∀ (tl : List FRecordedAction), sortedByTimestamp tl →
      (∃ a ∈ tl, t < a.timestamp) →
      findFirstAfterIdx t tl = some (firedCount tl t) := by
  intro tl
  induction tl with
  | nil => intro _ h; simp at h
  | cons a rest ih =>
      intro hs hex
      have hhead : ∀ b ∈ rest, a.timestamp ≤ b.timestamp :=
        (List.pairwise_cons.mp hs).1
      have hs' : sortedByTimestamp rest := (List.pairwise_cons.mp hs).2
      unfold findFirstAfterIdx
      by_cases ha : t < a.timestamp
      · rw [if_pos ha]
        have hz : firedCount (a :: rest) t = 0 := by
          unfold firedCount
          rw [List.countP_eq_zero]
          intro b hb
          simp only [decide_eq_true_eq]
          rcases List.mem_cons.mp hb with h | h
          · rw [h]; exact not_le_of_lt ha
          · exact fun hble => absurd (lt_of_lt_of_le ha (hhead b h)) (not_lt_of_le hble)
        rw [hz]
      · rw [if_neg ha]
        have hex' : ∃ b ∈ rest, t < b.timestamp := by
          rcases hex with ⟨b, hb, hbt⟩
          rcases List.mem_cons.mp hb with h | h
          · rw [h] at hbt; exact absurd hbt ha
          · exact ⟨b, h, hbt⟩
        rw [ih hs' hex']
        have hcount : firedCount (a :: rest) t = firedCount rest t + 1 := by
          unfold firedCount
          simp only [List.countP_cons]
          rw [if_pos (by simpa using le_of_not_lt ha)]
        rw [hcount]
        rfl

lemma findFirstAfterIdx_none (t : ℚ) :
    ∀ (tl : List FRecordedAction), (∀ a ∈ tl, a.timestamp ≤ t) →
      findFirstAfterIdx t tl = none := by
  intro tl
  induction tl with
  | nil => intro _; rfl
  | cons a rest ih =>
      intro hall
      unfold findFirstAfterIdx
      rw [if_neg (not_lt_of_le (hall a (by simp))), ih]
      · rfl
      · intro b hb
        exact hall b (List.mem_cons.mpr (Or.inr hb))

/-- The behaviour of `SeekToTime` asserted by the amended claim: the
clock is clamped into `[0, duration]`; when some action lies strictly
after the clamped time the cursor becomes the index of the first such
action (equivalently, the number of actions at or before it); when no
action lies after it, the scan leaves the cursor at its initialisation
value 0. -/
def seekSetsClockAndCursor (s : UActionPlayback) (t : ℚ) : Prop :=
  (seekToTime t s).playbackTime = clampQ t 0 (getDuration s.timeline) ∧
    ((∃ a ∈ s.timeline, clampQ t 0 (getDuration s.timeline) < a.timestamp) →
      (seekToTime t s).nextActionIndex =
        firedCount s.timeline (clampQ t 0 (getDuration s.timeline))) ∧
    ((∀ a ∈ s.timeline, a.timestamp ≤ clampQ t 0 (getDuration s.timeline)) →
      (seekToTime t s).nextActionIndex = 0)

/-- C7 (amended).  `SeekToTime(t)` clamps `t` to `[0, duration]` and
sets the cursor to the index of the first action with a strictly later
timestamp; when no such action exists (for example seeking exactly to
the duration) the cursor is left at 0 — not at the action count. -/
theorem seekToTime_clamp_cursor (s : UActionPlayback) (t : ℚ)
    (hs : sortedByTimestamp s.timeline) : seekSetsClockAndCursor s t := by
  refine ⟨rfl, ?_, ?_⟩
  · intro hex
    show (findFirstAfterIdx (clampQ t 0 (getDuration s.timeline)) s.timeline).getD 0 = _
    rw [findFirstAfterIdx_sorted _ s.timeline hs hex]
    rfl
  · intro hall
    show (findFirstAfterIdx (clampQ t 0 (getDuration s.timeline)) s.timeline).getD 0 = 0
    rw [findFirstAfterIdx_none _ s.timeline hall]
    rfl

/-- The spec's example timeline: actions at `t = 0, 0.5, 1`. -/
def c7Timeline : List FRecordedAction :=
  [⟨0, "Input", "Jump", .inputValue 1 0⟩,
   ⟨1 / 2, "Movement", "MoveToLocation", .movement ⟨1, 2, 3⟩⟩,
   ⟨1, "Input", "Fire", .inputValue 1 0⟩]

/-- Witness for C7 (amended) at the spec's example: seeking to `t = 0.6`
on the timeline `0, 0.5, 1` (giving cursor index 2 via the first
conjunct's count). -/
theorem seekToTime_clamp_cursor_witness :
    sortedByTimestamp c7Timeline ∧
      seekSetsClockAndCursor (startedPlayback c7Timeline .once 1 1 (1 / 20)) (3 / 5) := by
  have h1 : sortedByTimestamp c7Timeline := by
    unfold sortedByTimestamp c7Timeline
    norm_num [List.pairwise_cons]
  exact ⟨h1, seekToTime_clamp_cursor (startedPlayback c7Timeline .once 1 1 (1 / 20)) (3 / 5) h1⟩

/-- C7 counterexample: seeking to `t = 1` (the duration) on the
timeline `0, 0.5, 1` leaves the cursor at 0 — the source's scan never
assigns it when no action has a strictly later timestamp — whereas the
claim requires the action count 3.  Seeking to `t = 0.6` does give the
claimed cursor 2. -/
theorem seekToTime_end_cursor_zero :
    (seekToTime 1 (startedPlayback c7Timeline .once 1 1 (1 / 20))).nextActionIndex = 0 ∧
      c7Timeline.length = 3 ∧
      (seekToTime (3 / 5) (startedPlayback c7Timeline .once 1 1 (1 / 20))).nextActionIndex = 2 := by
  refine ⟨?_, by simp [c7Timeline], ?_⟩ <;>
    norm_num [seekToTime, startedPlayback, clampQ, getDuration, findFirstAfterIdx,
      c7Timeline, List.foldl]

/-! ## Recorder: `UActionRecorder` -/

/-- `ERecordingState`. -/
inductive ERecordingState
  | idle
  | recording
  | paused
deriving DecidableEq, Repr

/-- `UActionRecorder` configuration and mutable state
(ActionRecorder.h / constructor lines 8-28). -/
structure UActionRecorder where
  recordingState : ERecordingState
  recordingTime : ℚ
  maxRecordingDuration : ℚ
  recordingBufferSize : ℤ
  recordingInterval : ℚ
  bRecordMovement : Bool
  bRecordRotation : Bool
  movementThreshold : ℚ
  rotationThreshold : ℚ
  timeSinceLastAction : ℚ
  lastRecordedPosition : Vec3
  lastRecordedRotation : Rotator
  currentTimeline : UActionTimeline
deriving DecidableEq, Repr

/-- `UActionTimeline::AddMovementAction` as invoked by
`RecordMovementAction`: a `Movement` action at the current recording
time. -/
def addMovementAction (ts : ℚ) (target : Vec3) (tl : UActionTimeline) : UActionTimeline :=
  addAction ⟨ts, "Movement", "MoveToLocation", .movement target⟩ tl

/-- `UActionTimeline::AddRotationAction` as invoked by
`RecordRotationAction`: a `Rotation` action at the current recording
time. -/
def addRotationAction (ts : ℚ) (target : Rotator) (tl : UActionTimeline) : UActionTimeline :=
  addAction ⟨ts, "Rotation", "RotateTo", .rotation target⟩ tl

/-- `FVector::Dist(a, b) ≥ thr` without the square root: equivalent via
squaring for `thr ≥ 0`, and trivially true for `thr < 0` since a
distance is non-negative. -/
def distAtLeast (a b : Vec3) (thr : ℚ) : Prop :=
  if 0 ≤ thr then thr * thr ≤ Vec3.distSquared a b else True

instance (a b : Vec3) (thr : ℚ) : Decidable (distAtLeast a b thr) := by
  unfold distAtLeast
  infer_instance

/-- `CheckMovementChanges` (ActionRecorder.cpp lines 278-300): when
movement recording is on and a pawn is cached, an actor displacement of
at least `MovementThreshold` appends a Movement action and refreshes
the last recorded position. -/
def checkMovementChanges (pawn : Option (Vec3 × Rotator))
    (r : UActionRecorder) : UActionRecorder :=
  if r.bRecordMovement = false then r
  else
    match pawn with
    | none => r
    | some (pos, _) =>
        if distAtLeast pos r.lastRecordedPosition r.movementThreshold then
          { r with
            currentTimeline := addMovementAction r.recordingTime pos r.currentTimeline
            lastRecordedPosition := pos }
        else r

/-- `CheckRotationChanges` (ActionRecorder.cpp lines 302-323):
`RotationDiff = Abs((CurrentRotation - LastRecordedRotation).Yaw)` —
`FRotator` subtraction is componentwise and only the yaw component is
examined (line 310) — and a Rotation action is appended when
`RotationDiff >= RotationThreshold`. -/
def checkRotationChanges (pawn : Option (Vec3 × Rotator))
    (r : UActionRecorder) : UActionRecorder :=
  if r.bRecordRotation = false then r
  else
    match pawn with
    | none => r
    | some (_, rot) =>
        if r.rotationThreshold ≤ |rot.yaw - r.lastRecordedRotation.yaw| then
          { r with
            currentTimeline := addRotationAction r.recordingTime rot r.currentTimeline
            lastRecordedRotation := rot }
        else r

/-- `EnforceBufferLimit` (ActionRecorder.cpp lines 325-344).  When the
timeline holds more actions than `RecordingBufferSize`, the source
executes `TArray<FRecordedAction> Actions = CurrentTimeline->GetActions();`
— a copy of the array — calls `Actions.RemoveAt(0)` on that copy, and
breaks out of the loop; the timeline itself is never modified. -/
def enforceBufferLimit (r : UActionRecorder) : UActionRecorder :=
  if (r.currentTimeline.actions.length : ℤ) > r.recordingBufferSize then
    r
  else r

/-- `StopRecording` (lines 111-122) as far as state goes. -/
def stopRecordingRec (r : UActionRecorder) : UActionRecorder :=
  if r.recordingState = .idle then r else { r with recordingState := .idle }

/-- `UpdateRecording` (ActionRecorder.cpp lines 249-276): advance the
clocks; stop at the max duration; sample only once per
`RecordingInterval`; then run the movement check, the rotation check
and the buffer-limit enforcement. -/
def updateRecording (pawn : Option (Vec3 × Rotator)) (delta : ℚ)
    (r : UActionRecorder) : UActionRecorder :=
  if 0 < r.maxRecordingDuration ∧ r.maxRecordingDuration ≤ r.recordingTime + delta then
    stopRecordingRec
      { r with
        recordingTime := r.recordingTime + delta
        timeSinceLastAction := r.timeSinceLastAction + delta }
  else if r.timeSinceLastAction + delta < r.recordingInterval then
    { r with
      recordingTime := r.recordingTime + delta
      timeSinceLastAction := r.timeSinceLastAction + delta }
  else
    enforceBufferLimit (checkRotationChanges pawn (checkMovementChanges pawn
      { r with
        recordingTime := r.recordingTime + delta
        timeSinceLastAction := 0 }))

/-- `TickComponent` (lines 59-67): only a `Recording` recorder samples. -/
def tickRecorder (pawn : Option (Vec3 × Rotator)) (delta : ℚ)
    (r : UActionRecorder) : UActionRecorder :=
  if r.recordingState = .recording then updateRecording pawn delta r else r

/-- Timeline with three actions, above the witness buffer limit. -/
def c9Timeline : UActionTimeline :=
  { actions :=
      [⟨0, "Input", "A", .emptyData⟩,
       ⟨1, "Input", "B", .emptyData⟩,
       ⟨2, "Input", "C", .emptyData⟩]
    metadataDuration := 2
    metadataActionCount := 3 }

/-- Recorder whose timeline already exceeds its buffer limit of 2. -/
def c9Recorder : UActionRecorder :=
  { recordingState := .recording
    recordingTime := 1
    maxRecordingDuration := 0
    recordingBufferSize := 2
    recordingInterval := 1 / 10
    bRecordMovement := false
    bRecordRotation := false
    movementThreshold := 10
    rotationThreshold := 1
    timeSinceLastAction := 0
    lastRecordedPosition := ⟨0, 0, 0⟩
    lastRecordedRotation := ⟨0, 0, 0⟩
    currentTimeline := c9Timeline }

/-- C9.  Evaluation at a recorder whose timeline exceeds its configured
buffer limit: a full recording tick — which runs `EnforceBufferLimit` —
leaves all 3 actions in place, still above the limit of 2, because the
enforcement removes the oldest action from a local copy of the array
and never from the timeline. -/
theorem enforceBufferLimit_never_trims :
    ((c9Recorder.currentTimeline.actions.length : ℤ) > c9Recorder.recordingBufferSize) ∧
      (tickRecorder (some (⟨0, 0, 0⟩, ⟨0, 0, 0⟩)) (1 / 10)
        c9Recorder).currentTimeline.actions.length = 3 ∧
      (((tickRecorder (some (⟨0, 0, 0⟩, ⟨0, 0, 0⟩)) (1 / 10)
        c9Recorder).currentTimeline.actions.length : ℤ) > c9Recorder.recordingBufferSize) := by
  norm_num [c9Recorder, c9Timeline, tickRecorder, updateRecording, stopRecordingRec,
    enforceBufferLimit, checkMovementChanges, checkRotationChanges]

/-- Count of `Rotation`-typed actions stored in a timeline. -/
def rotationCount (tl : UActionTimeline) : ℕ :=
  tl.actions.countP (fun a => decide (a.actionType = "Rotation"))

lemma countP_insertByTimestamp (p : FRecordedAction → Bool) (a : FRecordedAction) :
    ∀ l, (insertByTimestamp a l).countP p =
      l.countP p + if p a = true then 1 else 0 := by
  intro l
  induction l with
  | nil => simp [insertByTimestamp, List.countP_cons]
  | cons b rest ih =>
      unfold insertByTimestamp
      by_cases hab : a.timestamp ≤ b.timestamp
      · rw [if_pos hab]
        simp only [List.countP_cons]
        all_goals omega
      · rw [if_neg hab]
        simp only [List.countP_cons, ih]
        all_goals omega

lemma countP_sortActions (p : FRecordedAction → Bool) :
    ∀ l, (sortActions l).countP p = l.countP p := by
  intro l
  induction l with
  | nil => rfl
  | cons a rest ih =>
      show (insertByTimestamp a (sortActions rest)).countP p = _
      rw [countP_insertByTimestamp, ih, List.countP_cons]

lemma countP_addAction (p : FRecordedAction → Bool) (a : FRecordedAction)
    (tl : UActionTimeline) :
    (addAction a tl).actions.countP p =
      tl.actions.countP p + if p a = true then 1 else 0 := by
  unfold addAction
  show (sortActions (tl.actions ++ [a])).countP p = _
  rw [countP_sortActions, List.countP_append]
  all_goals simp [List.countP_cons]

lemma checkMovementChanges_rotation_fields (pawn : Option (Vec3 × Rotator))
    (r : UActionRecorder) :
    rotationCount (checkMovementChanges pawn r).currentTimeline =
        rotationCount r.currentTimeline ∧
      (checkMovementChanges pawn r).lastRecordedRotation = r.lastRecordedRotation ∧
      (checkMovementChanges pawn r).bRecordRotation = r.bRecordRotation ∧
      (checkMovementChanges pawn r).rotationThreshold = r.rotationThreshold := by
  unfold checkMovementChanges
  by_cases hm : r.bRecordMovement = false
  · rw [if_pos hm]
    exact ⟨rfl, rfl, rfl, rfl⟩
  · rw [if_neg hm]
    cases pawn with
    | none => exact ⟨rfl, rfl, rfl, rfl⟩
    | some pr =>
        obtain ⟨pos, rot⟩ := pr
        dsimp only
        by_cases hd : distAtLeast pos r.lastRecordedPosition r.movementThreshold
        · rw [if_pos hd]
          refine ⟨?_, rfl, rfl, rfl⟩
          show rotationCount (addMovementAction r.recordingTime pos r.currentTimeline) = _
          unfold rotationCount addMovementAction
          rw [countP_addAction]
          simp only [decide_eq_true_eq]
          rw [if_neg (by decide)]
          all_goals omega
        · rw [if_neg hd]
          exact ⟨rfl, rfl, rfl, rfl⟩

lemma checkRotationChanges_count (pos : Vec3) (rot : Rotator)
    (r : UActionRecorder) (hrot : r.bRecordRotation = true) :
    rotationCount (checkRotationChanges (some (pos, rot)) r).currentTimeline =
      rotationCount r.currentTimeline +
        if r.rotationThreshold ≤ |rot.yaw - r.lastRecordedRotation.yaw| then 1 else 0 := by
  unfold checkRotationChanges
  rw [if_neg (by rw [hrot]; simp)]
  dsimp only
  by_cases hth : r.rotationThreshold ≤ |rot.yaw - r.lastRecordedRotation.yaw|
  · rw [if_pos hth, if_pos hth]
    show rotationCount (addRotationAction r.recordingTime rot r.currentTimeline) = _
    unfold rotationCount addRotationAction
    rw [countP_addAction]
    simp only [decide_eq_true_eq]
    rw [if_pos (by decide)]
  · rw [if_neg hth, if_neg hth]
    all_goals simp

/-- The amended C10 behaviour at one sampling tick: a Rotation action is
appended exactly when the absolute yaw delta since the last recorded
rotation reaches the threshold (pitch is not consulted). -/
def rotationRecordedIffYaw (pos : Vec3) (rot : Rotator) (delta : ℚ)
    (r : UActionRecorder) : Prop :=
  rotationCount (updateRecording (some (pos, rot)) delta r).currentTimeline =
    rotationCount r.currentTimeline +
      if r.rotationThreshold ≤ |rot.yaw - r.lastRecordedRotation.yaw| then 1 else 0

/-- C10 (amended).  At a sampling tick (interval elapsed, max duration
not hit, rotation recording enabled), `UpdateRecording` appends a
Rotation action if and only if the absolute yaw delta since the last
recorded rotation is at least `RotationThreshold`; the pitch delta
plays no part. -/
theorem updateRecording_rotation_yaw_only (pos : Vec3) (rot : Rotator)
    (delta : ℚ) (r : UActionRecorder)
    (hrot : r.bRecordRotation = true)
    (hdur : ¬ (0 < r.maxRecordingDuration ∧
      r.maxRecordingDuration ≤ r.recordingTime + delta))
    (hint : r.recordingInterval ≤ r.timeSinceLastAction + delta) :
    rotationRecordedIffYaw pos rot delta r := by
  unfold rotationRecordedIffYaw updateRecording
  rw [if_neg hdur, if_neg (not_lt_of_le hint)]
  have hbuf : ∀ rr : UActionRecorder,
      (enforceBufferLimit rr).currentTimeline = rr.currentTimeline := by
    intro rr
    unfold enforceBufferLimit
    split <;> rfl
  rw [hbuf]
  have hmv := checkMovementChanges_rotation_fields (some (pos, rot))
    { r with
      recordingTime := r.recordingTime + delta
      timeSinceLastAction := 0 }
  obtain ⟨hcount, hlast, hbr, hth⟩ := hmv
  rw [checkRotationChanges_count pos rot _ (by rw [hbr]; exact hrot)]
  rw [hcount, hlast, hth]

/-- Recorder used by the C10 witness and counterexample. -/
def c10Recorder : UActionRecorder :=
  { recordingState := .recording
    recordingTime := 1
    maxRecordingDuration := 0
    recordingBufferSize := 10000
    recordingInterval := 1 / 10
    bRecordMovement := true
    bRecordRotation := true
    movementThreshold := 10
    rotationThreshold := 1
    timeSinceLastAction := 1 / 10
    lastRecordedPosition := ⟨0, 0, 0⟩
    lastRecordedRotation := ⟨0, 0, 0⟩
    currentTimeline := { actions := [], metadataDuration := 0, metadataActionCount := 0 } }

/-- Witness for C10 (amended): a 2-degree yaw change at a sampling tick
records a rotation. -/
theorem updateRecording_rotation_yaw_only_witness :
    c10Recorder.bRecordRotation = true ∧
      (¬ (0 < c10Recorder.maxRecordingDuration ∧
        c10Recorder.maxRecordingDuration ≤ c10Recorder.recordingTime + 1 / 10)) ∧
      c10Recorder.recordingInterval ≤ c10Recorder.timeSinceLastAction + 1 / 10 ∧
      rotationRecordedIffYaw ⟨0, 0, 0⟩ ⟨0, 2, 0⟩ (1 / 10) c10Recorder := by
  have h1 : c10Recorder.bRecordRotation = true := rfl
  have h2 : ¬ (0 < c10Recorder.maxRecordingDuration ∧
      c10Recorder.maxRecordingDuration ≤ c10Recorder.recordingTime + 1 / 10) := by
    norm_num [c10Recorder]
  have h3 : c10Recorder.recordingInterval ≤ c10Recorder.timeSinceLastAction + 1 / 10 := by
    norm_num [c10Recorder]
  exact ⟨h1, h2, h3,
    updateRecording_rotation_yaw_only ⟨0, 0, 0⟩ ⟨0, 2, 0⟩ (1 / 10) c10Recorder h1 h2 h3⟩

/-- C10 counterexample: at a sampling tick, a pure pitch change of 5°
(yaw unchanged) — for which the claim's measure
`max |Δyaw| |Δpitch| = 5` reaches the threshold 1 — appends nothing:
the source computes the rotation delta from the yaw alone. -/
theorem checkRotation_ignores_pitch :
    (tickRecorder (some (⟨0, 0, 0⟩, ⟨5, 0, 0⟩)) (1 / 10)
        c10Recorder).currentTimeline.actions.length = 0 ∧
      (1 : ℚ) ≤ max |(0 : ℚ) - 0| |(5 : ℚ) - 0| := by
  constructor
  · norm_num [c10Recorder, tickRecorder, updateRecording, stopRecordingRec,
      enforceBufferLimit, checkMovementChanges, checkRotationChanges, distAtLeast,
      Vec3.distSquared, addRotationAction, addMovementAction]
  · norm_num

end YesUeFsd
